import Mathlib

/-!
Verification of the ranking core of crow.watch.

This file gives a shallow embedding of the two ranking components of the
repository and proves properties of them:

* the `rank` package (Wilson confidence score, hotness calculator, story
  ranker), where Go `float64` arithmetic is modelled by exact real
  arithmetic over `ℝ`, and `time.Time` values by their Unix timestamps
  in `ℤ`;
* the comment tree builder `buildCommentTree` of the `app` package,
  where the wall clock read by `time.Since` is made an explicit `now`
  argument and the external markdown renderer an explicit function
  argument.

Go `sort.Slice` is embedded by a direct transcription of the pattern
defeating quicksort used by the Go standard library (`pdqsort`), since
its behaviour on ties is not determined by its contract; `sort.SliceStable`
is embedded through its contract (the unique stable sort of the input,
realised by the stable `List.mergeSort`).
-/

set_option maxHeartbeats 2000000
set_option maxRecDepth 10000

namespace Rank

/-- Model of the constant `DefaultHotnessWindowSeconds = 22 * 60 * 60`. -/
def DefaultHotnessWindowSeconds : ℤ := 22 * 60 * 60

/-- Constant `z = 1.281` used by `WilsonScore` (80 percent confidence). -/
def zval : ℝ := 1.281

/-- Model of `rank.WilsonScore(upvotes, downvotes int) float64`: the lower
bound of the Wilson score confidence interval, or `0` when there are no
votes. `float64` is modelled as `ℝ`. -/
noncomputable def WilsonScore (upvotes downvotes : ℤ) : ℝ :=
  let n : ℝ := ((upvotes + downvotes : ℤ) : ℝ)
  if n = 0 then 0
  else
    let z : ℝ := zval
    let phat : ℝ := (upvotes : ℝ) / n
    (phat + z * z / (2 * n) - z * Real.sqrt ((phat * (1 - phat) + z * z / (4 * n)) / n)) /
      (1 + z * z / n)

/-- Model of `rank.TagInput`. -/
structure TagInput where
  HotnessMod : ℝ

/-- Model of `rank.CommentInput`. -/
structure CommentInput where
  Score : ℤ
  IsSubmitter : Bool

/-- Model of `rank.StoryInput`; `CreatedAt` is the Unix timestamp in
seconds (only `CreatedAt.Unix()` is consumed by the ranking code). -/
structure StoryInput where
  ID : ℤ
  CreatedAt : ℤ
  Tags : List TagInput
  StoryScore : ℤ
  Comments : List CommentInput

/-- Model of `rank.ScoredStory` (which embeds `StoryInput` in Go). -/
structure ScoredStory extends StoryInput where
  Hotness : ℝ
  Base : ℝ
  Order : ℝ
  Sign : ℤ
  Age : ℝ
  CommentPoints : ℝ
  Cpoints : ℝ

/-- Model of `rank.ComputeBase`: sums the `HotnessMod` of every tag with a
running accumulator, exactly as the Go `for` loop does. -/
def ComputeBase (tags : List TagInput) : ℝ :=
  tags.foldl (fun base t => base + t.HotnessMod) 0

/-- Loop body of `rank.ComputeCommentPoints`: each comment adds `1.0`,
plus `0.25` when its author is the submitter. -/
def commentStep (acc : ℝ) (c : CommentInput) : ℝ :=
  if c.IsSubmitter then acc + 1 + 0.25 else acc + 1

/-- Model of `rank.ComputeCommentPoints`: returns `(cpoints, rawCommentPoints)`.
When `base < 0` both are `0`; otherwise the raw points are accumulated by
the loop and `cpoints = min(raw, float64(storyScore))`. -/
noncomputable def ComputeCommentPoints (base : ℝ) (storyScore : ℤ)
    (comments : List CommentInput) : ℝ × ℝ :=
  if base < 0 then (0, 0)
  else
    let rawCommentPoints : ℝ := comments.foldl commentStep 0
    let cpoints : ℝ := min rawCommentPoints (storyScore : ℝ)
    (cpoints, rawCommentPoints)

/-- Model of `rank.ComputeOrder`: `log10` of `|storyScore + cpoints|`
floored at `1`, the result clamped to at most `10`. -/
noncomputable def ComputeOrder (storyScore : ℤ) (cpoints : ℝ) : ℝ :=
  let v : ℝ := |(storyScore : ℝ) + cpoints|
  let v : ℝ := if v < 1 then 1 else v
  min (Real.logb 10 v) 10

/-- Model of `rank.ComputeSign`. -/
def ComputeSign (storyScore : ℤ) : ℤ :=
  if storyScore > 0 then 1
  else if storyScore < 0 then -1
  else 0

/-- Model of `rank.ComputeAge`: Unix seconds divided by the window. -/
noncomputable def ComputeAge (createdAt : ℤ) (windowSeconds : ℝ) : ℝ :=
  (createdAt : ℝ) / windowSeconds

/-- Model of `rank.ComputeHotness`:
`hotness = -1 * (base + order*sign + age)` together with the breakdown. -/
noncomputable def ComputeHotness (story : StoryInput) (windowSeconds : ℝ) : ScoredStory :=
  let base := ComputeBase story.Tags
  let cp := ComputeCommentPoints base story.StoryScore story.Comments
  let cpoints := cp.1
  let rawCommentPoints := cp.2
  let order := ComputeOrder story.StoryScore cpoints
  let sign := ComputeSign story.StoryScore
  let age := ComputeAge story.CreatedAt windowSeconds
  let hotness := -1 * (base + order * (sign : ℝ) + age)
  { story with
    Hotness := hotness
    Base := base
    Order := order
    Sign := sign
    Age := age
    CommentPoints := rawCommentPoints
    Cpoints := cpoints }

end Rank

section RankBasicLemmas

open Rank

/-- Accumulating the comment loop from `a` equals `a` plus the run from `0`. -/
theorem commentFold_shift (comments : List CommentInput) (a : ℝ) :
    comments.foldl commentStep a = a + comments.foldl commentStep 0 := by
  induction comments generalizing a with
  | nil => simp
  | cons c cs ih =>
    simp only [List.foldl_cons]
    rw [ih (commentStep a c), ih (commentStep 0 c)]
    simp [commentStep]
    split <;> ring

/-- Raw comment points are nonnegative. -/
theorem commentFold_nonneg (comments : List CommentInput) :
    0 ≤ comments.foldl commentStep 0 := by
  induction comments with
  | nil => simp
  | cons c cs ih =>
    simp only [List.foldl_cons]
    rw [commentFold_shift]
    have hstep : (0 : ℝ) ≤ commentStep 0 c := by
      simp [commentStep]; split <;> norm_num
    linarith

/-- Clamping in the floor branch of `ComputeOrder` agrees with `max`. -/
theorem floor_one_eq_max (v : ℝ) : (if v < 1 then (1 : ℝ) else v) = max v 1 := by
  rcases lt_or_le v 1 with h | h
  · simp [h, max_eq_right h.le]
  · simp [not_lt.mpr h, max_eq_left h]

end RankBasicLemmas

section RankClaims

open Rank

/-- Shifting the accumulator of the tag loop out of the fold. -/
theorem baseFold_shift (tags : List TagInput) (a : ℝ) :
    tags.foldl (fun base t => base + t.HotnessMod) a
      = a + tags.foldl (fun base t => base + t.HotnessMod) 0 := by
  induction tags generalizing a with
  | nil => simp
  | cons t ts ih =>
    simp only [List.foldl_cons]
    rw [ih (a + t.HotnessMod), ih (0 + t.HotnessMod)]
    ring

/-- Topic bias computed by the accumulator loop is the sum of the modifiers. -/
theorem computeBase_eq_sum (tags : List TagInput) :
    ComputeBase tags = (tags.map (fun t => t.HotnessMod)).sum := by
  unfold ComputeBase
  induction tags with
  | nil => simp
  | cons t ts ih =>
    simp only [List.foldl_cons, List.map_cons, List.sum_cons]
    rw [baseFold_shift, ih]
    ring

end RankClaims

section ClaimC2

open Rank

/-- C2: for every story and window, `ComputeHotness` returns
`hotness = -1 * (topic_bias + magnitude_term * sign + recency_term)` where
the topic bias is the sum of the tag modifiers, the sign is determined by
the sign of the net score, the recency term is the creation Unix timestamp
divided by the window, and the magnitude term is
`min(log10(max(|net score + clamped bonus|, 1)), 10)`; moreover every
breakdown field of the returned `ScoredStory` equals the corresponding
sub-computation. -/
theorem computeHotness_formula (story : StoryInput) (w : ℝ) :
    (ComputeHotness story w).Hotness =
      -1 * ((story.Tags.map (fun t => t.HotnessMod)).sum
        + min (Real.logb 10 (max |(story.StoryScore : ℝ) + (ComputeHotness story w).Cpoints| 1)) 10
            * ((if 0 < story.StoryScore then (1 : ℤ) else if story.StoryScore < 0 then -1 else 0) : ℝ)
        + (story.CreatedAt : ℝ) / w)
    ∧ (ComputeHotness story w).Base = (story.Tags.map (fun t => t.HotnessMod)).sum
    ∧ (ComputeHotness story w).Order =
        min (Real.logb 10 (max |(story.StoryScore : ℝ) + (ComputeHotness story w).Cpoints| 1)) 10
    ∧ (ComputeHotness story w).Sign =
        (if 0 < story.StoryScore then 1 else if story.StoryScore < 0 then -1 else 0)
    ∧ (ComputeHotness story w).Age = (story.CreatedAt : ℝ) / w
    ∧ (ComputeHotness story w).Cpoints =
        (ComputeCommentPoints (ComputeBase story.Tags) story.StoryScore story.Comments).1
    ∧ (ComputeHotness story w).CommentPoints =
        (ComputeCommentPoints (ComputeBase story.Tags) story.StoryScore story.Comments).2 := by
  have hcp : (ComputeHotness story w).Cpoints
      = (ComputeCommentPoints (ComputeBase story.Tags) story.StoryScore story.Comments).1 := rfl
  have hraw : (ComputeHotness story w).CommentPoints
      = (ComputeCommentPoints (ComputeBase story.Tags) story.StoryScore story.Comments).2 := rfl
  have hhotF : (ComputeHotness story w).Hotness
      = -1 * (ComputeBase story.Tags
          + ComputeOrder story.StoryScore
              (ComputeCommentPoints (ComputeBase story.Tags) story.StoryScore story.Comments).1
            * ((ComputeSign story.StoryScore : ℤ) : ℝ)
          + ComputeAge story.CreatedAt w) := rfl
  have horder : ∀ c : ℝ, ComputeOrder story.StoryScore c
      = min (Real.logb 10 (max |(story.StoryScore : ℝ) + c| 1)) 10 := by
    intro c
    show min (Real.logb 10
        (if |(story.StoryScore : ℝ) + c| < 1 then 1 else |(story.StoryScore : ℝ) + c|)) 10 = _
    rw [floor_one_eq_max]
  have hage : ComputeAge story.CreatedAt w = (story.CreatedAt : ℝ) / w := rfl
  have hsign2 : ComputeSign story.StoryScore
      = (if 0 < story.StoryScore then 1 else if story.StoryScore < 0 then -1 else 0) := rfl
  refine ⟨?_, ?_, ?_, hsign2, hage, hcp, hraw⟩
  · rw [hhotF, hcp, computeBase_eq_sum, horder, hage, hsign2]
    split_ifs <;> push_cast <;> ring
  · rw [show (ComputeHotness story w).Base = ComputeBase story.Tags from rfl,
      computeBase_eq_sum]
  · rw [show (ComputeHotness story w).Order
        = ComputeOrder story.StoryScore
            (ComputeCommentPoints (ComputeBase story.Tags) story.StoryScore story.Comments).1
      from rfl, hcp, horder]

end ClaimC2

section ClaimC4

open Rank

/-- C4 counterexample: with `base = 0`, `storyScore = -5` and no comments,
`ComputeCommentPoints` returns a clamped value of `-5`, which is negative,
refuting the claim that the clamped bonus always lies in `[0, net score]`. -/
theorem computeCommentPoints_negative_cex :
    (ComputeCommentPoints 0 (-5) []).1 = -5 ∧
    ¬ (0 ≤ (ComputeCommentPoints 0 (-5) []).1) := by
  have h : (ComputeCommentPoints 0 (-5) []).1 = -5 := by
    unfold ComputeCommentPoints
    norm_num
  exact ⟨h, by rw [h]; norm_num⟩

/-- C4 (amended with a nonnegative net score): for every base value,
nonnegative net score and comment list, the clamped value returned by
`ComputeCommentPoints` satisfies `0 ≤ clamped ≤ net score` and
`clamped ≤ raw`. -/
theorem computeCommentPoints_bounds (base : ℝ) (storyScore : ℤ)
    (comments : List CommentInput) (h : 0 ≤ storyScore) :
    0 ≤ (ComputeCommentPoints base storyScore comments).1 ∧
    (ComputeCommentPoints base storyScore comments).1 ≤ (storyScore : ℝ) ∧
    (ComputeCommentPoints base storyScore comments).1
      ≤ (ComputeCommentPoints base storyScore comments).2 := by
  have hs : (0 : ℝ) ≤ (storyScore : ℝ) := by exact_mod_cast h
  unfold ComputeCommentPoints
  split
  · simpa using hs
  · refine ⟨le_min (commentFold_nonneg comments) hs, min_le_right _ _, min_le_left _ _⟩

/-- Witness for the amended C4 at `base = 0`, `storyScore = 5`, one
submitter comment. -/
theorem computeCommentPoints_bounds_witness :
    (0 : ℤ) ≤ 5 ∧
    (0 ≤ (ComputeCommentPoints 0 5 [⟨1, true⟩]).1 ∧
      (ComputeCommentPoints 0 5 [⟨1, true⟩]).1 ≤ ((5 : ℤ) : ℝ) ∧
      (ComputeCommentPoints 0 5 [⟨1, true⟩]).1 ≤ (ComputeCommentPoints 0 5 [⟨1, true⟩]).2) :=
  ⟨by decide, computeCommentPoints_bounds 0 5 [⟨1, true⟩] (by decide)⟩

end ClaimC4

section ClaimC8

open Rank

/-- C8: for a fixed positive window the recency term is strictly monotone
in the creation time, and a story that is identical except for a strictly
more recent creation timestamp has strictly lower (more negative) hotness. -/
theorem computeAge_hotness_strictMono (s : StoryInput) (t2 : ℤ) (w : ℝ)
    (hw : 0 < w) (ht : s.CreatedAt < t2) :
    ComputeAge s.CreatedAt w < ComputeAge t2 w ∧
    (ComputeHotness { s with CreatedAt := t2 } w).Hotness < (ComputeHotness s w).Hotness := by
  have hage : ComputeAge s.CreatedAt w < ComputeAge t2 w := by
    unfold ComputeAge
    exact (div_lt_div_iff_of_pos_right hw).mpr (by exact_mod_cast ht)
  refine ⟨hage, ?_⟩
  have h1 : (ComputeHotness s w).Hotness
      = -1 * (ComputeBase s.Tags
          + ComputeOrder s.StoryScore
              (ComputeCommentPoints (ComputeBase s.Tags) s.StoryScore s.Comments).1
            * ((ComputeSign s.StoryScore : ℤ) : ℝ)
          + ComputeAge s.CreatedAt w) := rfl
  have h2 : (ComputeHotness { s with CreatedAt := t2 } w).Hotness
      = -1 * (ComputeBase s.Tags
          + ComputeOrder s.StoryScore
              (ComputeCommentPoints (ComputeBase s.Tags) s.StoryScore s.Comments).1
            * ((ComputeSign s.StoryScore : ℤ) : ℝ)
          + ComputeAge t2 w) := rfl
  rw [h1, h2]
  linarith

/-- Witness for C8 at a concrete story, timestamp and window. -/
theorem computeAge_hotness_strictMono_witness :
    (0 : ℝ) < 79200 ∧
    (({ ID := 1, CreatedAt := 0, Tags := [], StoryScore := 0, Comments := [] } : StoryInput).CreatedAt < 79200) ∧
    (ComputeAge 0 79200 < ComputeAge 79200 79200 ∧
      (ComputeHotness { ID := 1, CreatedAt := 79200, Tags := [], StoryScore := 0, Comments := [] } 79200).Hotness
        < (ComputeHotness { ID := 1, CreatedAt := 0, Tags := [], StoryScore := 0, Comments := [] } 79200).Hotness) :=
  ⟨by norm_num, by decide,
    computeAge_hotness_strictMono
      { ID := 1, CreatedAt := 0, Tags := [], StoryScore := 0, Comments := [] }
      79200 79200 (by norm_num) (by decide)⟩

end ClaimC8

namespace App

/-- Model of `app.FlagCount`. -/
structure FlagCount where
  Reason : String
  Count : ℤ
deriving DecidableEq, Repr

/-- Model of the constant `maxCommentDepth = 10`. -/
def maxCommentDepth : ℤ := 10

/-- Model of `editWindowMinutes * time.Minute` in nanoseconds, the unit in
which `time.Duration` comparisons are performed by Go. -/
def editWindowDuration : ℤ := 5 * 60 * 1000000000

/-- Model of the package variable `flagReasons`. -/
def flagReasons : List String := ["off-topic", "troll", "unkind", "spam"]

/-- Model of `store.ListCommentsByStoryRow` (the sqlc row of the
`ListCommentsByStory` query). Timestamps are integers (nanoseconds of the
Go time value, with the zero time at `0`); `DeletedAtValid` models
`DeletedAt.Valid` of the nullable column. -/
structure ListCommentsByStoryRow where
  ID : ℤ
  StoryID : ℤ
  UserID : ℤ
  ParentID : Option ℤ
  Body : String
  Depth : ℤ
  Upvotes : ℤ
  Downvotes : ℤ
  CreatedAt : ℤ
  UpdatedAt : ℤ
  DeletedAtValid : Bool
  Username : String
deriving DecidableEq, Repr

/-- Model of `app.buildTreeOpts`. Go maps are modelled as total functions
with the zero-value default (`false`, empty list); the zero `time.Time`
of `lastVisit` is the integer `0`. -/
structure BuildTreeOpts where
  currentUserID : ℤ
  storySubmitterID : ℤ
  votedMap : ℤ → Bool
  flaggedMap : ℤ → Bool
  flagCountsMap : ℤ → List FlagCount
  lastVisit : ℤ
  isLoggedIn : Bool
  storyCode : String

/-- Model of `app.CommentNode` without its `Children` field: the per-row
display data computed by the first pass of `buildCommentTree`. -/
structure CNode where
  ID : ℤ
  StoryID : ℤ
  UserID : ℤ
  ParentID : ℤ
  Username : String
  Body : String
  RawBody : String
  Depth : ℤ
  Upvotes : ℤ
  Downvotes : ℤ
  HasUpvoted : Bool
  HasFlagged : Bool
  IsAuthor : Bool
  IsSubmitter : Bool
  CanEdit : Bool
  IsDeleted : Bool
  IsUnread : Bool
  IsLoggedIn : Bool
  IsMaxDepth : Bool
  CreatedAt : ℤ
  FlagReasons : List String
  FlagCounts : List FlagCount
  StoryCode : String
deriving DecidableEq, Repr

/-- Default comment node (zero value), used only for map lookups that the
code guarantees to succeed. -/
def defaultCNode : CNode :=
  { ID := 0, StoryID := 0, UserID := 0, ParentID := 0, Username := "", Body := ""
    RawBody := "", Depth := 0, Upvotes := 0, Downvotes := 0, HasUpvoted := false
    HasFlagged := false, IsAuthor := false, IsSubmitter := false, CanEdit := false
    IsDeleted := false, IsUnread := false, IsLoggedIn := false, IsMaxDepth := false
    CreatedAt := 0, FlagReasons := [], FlagCounts := [], StoryCode := "" }

/-- First pass of `app.buildCommentTree`: derive the display node of one
row. The markdown renderer is the explicit collaborator `render` and the
wall clock read by `time.Since` is the explicit argument `now`. -/
def buildNode (render : String → String) (now : ℤ) (opts : BuildTreeOpts)
    (r : ListCommentsByStoryRow) : CNode :=
  let isDeleted := r.DeletedAtValid
  let body := if isDeleted then "<em>[deleted]</em>" else render r.Body
  let rawBody := if isDeleted then "" else r.Body
  let canEdit := !isDeleted && opts.isLoggedIn && (r.UserID == opts.currentUserID)
      && decide (now - r.CreatedAt < editWindowDuration)
  let isUnread0 := opts.isLoggedIn && !(opts.lastVisit == 0)
      && decide (opts.lastVisit < r.CreatedAt) && !(r.UserID == opts.currentUserID)
  let isUnread := if opts.lastVisit == 0 then false else isUnread0
  { ID := r.ID
    StoryID := r.StoryID
    UserID := r.UserID
    ParentID := r.ParentID.getD 0
    Username := r.Username
    Body := body
    RawBody := rawBody
    Depth := r.Depth
    Upvotes := r.Upvotes
    Downvotes := r.Downvotes
    HasUpvoted := opts.votedMap r.ID
    HasFlagged := opts.flaggedMap r.ID
    IsAuthor := opts.isLoggedIn && (r.UserID == opts.currentUserID)
    IsSubmitter := r.UserID == opts.storySubmitterID
    CanEdit := canEdit
    IsDeleted := isDeleted
    IsUnread := isUnread
    IsLoggedIn := opts.isLoggedIn
    IsMaxDepth := decide (maxCommentDepth ≤ r.Depth)
    CreatedAt := r.CreatedAt
    FlagReasons := flagReasons
    FlagCounts := opts.flagCountsMap r.ID
    StoryCode := opts.storyCode }

/-- The `nodeMap` of `buildCommentTree`: a Go map from comment id to the
built node, later insertions overriding earlier ones. -/
def nodeMapOf (render : String → String) (now : ℤ) (opts : BuildTreeOpts)
    (rows : List ListCommentsByStoryRow) : ℤ → Option CNode :=
  rows.foldl
    (fun m r => fun id => if id = r.ID then some (buildNode render now opts r) else m id)
    (fun _ => none)

/-- One step of the linking pass: the row joins its parents child list
when the parent id resolves in `nodeMap`, and the root list otherwise. -/
def linkStep (nm : ℤ → Option CNode) (st : List CNode × (ℤ → List CNode))
    (r : ListCommentsByStoryRow) : List CNode × (ℤ → List CNode) :=
  let node := (nm r.ID).getD defaultCNode
  match r.ParentID with
  | some pid =>
    if (nm pid).isSome then
      (st.1, fun q => if q = pid then st.2 q ++ [node] else st.2 q)
    else
      (st.1 ++ [node], st.2)
  | none => (st.1 ++ [node], st.2)

/-- Second pass of `buildCommentTree`: link children to parents, keeping
the row order within every sibling list. -/
def linkPass (nm : ℤ → Option CNode) (rows : List ListCommentsByStoryRow) :
    List CNode × (ℤ → List CNode) :=
  rows.foldl (linkStep nm) ([], fun _ => [])

open Classical in
/-- Model of the comparator closure inside `sortByWilson`: Wilson score
descending, creation time ascending as the tie break. -/
noncomputable def commentLess (x y : CNode) : Bool :=
  let si := Rank.WilsonScore x.Upvotes x.Downvotes
  let sj := Rank.WilsonScore y.Upvotes y.Downvotes
  if si ≠ sj then decide (sj < si) else decide (x.CreatedAt < y.CreatedAt)

/-- Ordering predicate handed to the stable sort: `x` may stay before `y`
precisely when the comparator does not demand `y` before `x`. -/
noncomputable def sliceStableLE (x y : CNode) : Bool := !commentLess y x

/-- Model of `sortByWilson`, which calls `sort.SliceStable`: the contract
of `sort.SliceStable` (sortedness plus stability, which for a strict weak
comparator determines the output uniquely) is realised by the stable
`List.mergeSort`. -/
noncomputable def sortByWilson (nodes : List CNode) : List CNode :=
  nodes.mergeSort sliceStableLE

/-- Output of `buildCommentTree`: the Go function returns the root list
of a pointer forest; the child lists owned by the nodes are represented
by the adjacency function `childrenOf`. -/
structure BuiltTree where
  roots : List CNode
  childrenOf : ℤ → List CNode

/-- Model of `app.buildCommentTree`: build nodes, link children to
parents (unresolvable parents become roots), then sort the root list and
every child list with more than one element by the Wilson comparator. -/
noncomputable def buildCommentTree (render : String → String) (now : ℤ)
    (rows : List ListCommentsByStoryRow) (opts : BuildTreeOpts) : BuiltTree :=
  let nm := nodeMapOf render now opts rows
  let st := linkPass nm rows
  { roots := sortByWilson st.1
    childrenOf := fun pid =>
      if 1 < (st.2 pid).length then sortByWilson (st.2 pid) else st.2 pid }

/-- Display tree with materialised child lists (the pointer structure of
the Go `CommentNode` forest). -/
inductive CommentNode where
  | mk : CNode → List CommentNode → CommentNode

/-- Data of the node. -/
def CommentNode.data : CommentNode → CNode
  | .mk d _ => d

/-- Children of the node. -/
def CommentNode.children : CommentNode → List CommentNode
  | .mk _ c => c

/-- Materialise the tree below one node by unfolding the adjacency
function; `fuel` bounds the depth and is never exhausted on acyclic
input. -/
def toTree (childrenOf : ℤ → List CNode) : ℕ → CNode → CommentNode
  | 0, nd => .mk nd []
  | fuel + 1, nd => .mk nd (((childrenOf nd.ID).map (toTree childrenOf fuel)))

/-- Materialised forest returned by `buildCommentTree`. -/
noncomputable def buildCommentForest (render : String → String) (now : ℤ)
    (rows : List ListCommentsByStoryRow) (opts : BuildTreeOpts) : List CommentNode :=
  let t := buildCommentTree render now rows opts
  t.roots.map (toTree t.childrenOf rows.length)

/-- Flatten a materialised tree into the list of its nodes. -/
def flattenTree : CommentNode → List CNode
  | .mk d cs => d :: (cs.attach.map (fun c => flattenTree c.1)).flatten
decreasing_by
  have := List.sizeOf_lt_of_mem c.2
  simp only [CommentNode.mk.sizeOf_spec]
  omega

end App

namespace App

/-- Node stored for a row: the guaranteed-successful `nodeMap` lookup. -/
def nodeAt (nm : ℤ → Option CNode) (r : ListCommentsByStoryRow) : CNode :=
  (nm r.ID).getD defaultCNode

/-- Whether the linking pass attaches the row below a parent (a declared
parent id that resolves in the node map). -/
def linkAttaches (nm : ℤ → Option CNode) (r : ListCommentsByStoryRow) : Bool :=
  match r.ParentID with
  | some pid => (nm pid).isSome
  | none => false

/-- Whether the linking pass appends the row to the child list of `pid`. -/
def linkChild (nm : ℤ → Option CNode) (pid : ℤ) (r : ListCommentsByStoryRow) : Bool :=
  (r.ParentID == some pid) && (nm pid).isSome

/-- Root component of the link fold, relative to any starting state. -/
theorem linkFold_roots (nm : ℤ → Option CNode) (rows : List ListCommentsByStoryRow)
    (st : List CNode × (ℤ → List CNode)) :
    (rows.foldl (linkStep nm) st).1
      = st.1 ++ (rows.filter (fun r => !(linkAttaches nm r))).map (nodeAt nm) := by
  induction rows generalizing st with
  | nil => simp
  | cons r rs ih =>
    simp only [List.foldl_cons]
    rw [ih]
    rcases hpar : r.ParentID with _ | pid
    · simp [linkStep, hpar, linkAttaches, nodeAt]
    · rcases hsome : (nm pid).isSome with _ | _
      · simp [linkStep, hpar, hsome, linkAttaches, nodeAt]
      · simp [linkStep, hpar, hsome, linkAttaches, nodeAt]

/-- Child component of the link fold, relative to any starting state. -/
theorem linkFold_children (nm : ℤ → Option CNode) (rows : List ListCommentsByStoryRow)
    (st : List CNode × (ℤ → List CNode)) (pid : ℤ) :
    (rows.foldl (linkStep nm) st).2 pid
      = st.2 pid ++ (rows.filter (linkChild nm pid)).map (nodeAt nm) := by
  induction rows generalizing st with
  | nil => simp
  | cons r rs ih =>
    simp only [List.foldl_cons]
    rw [ih]
    rcases hpar : r.ParentID with _ | pid2
    · simp [linkStep, hpar, linkChild]
    · rcases hsome : (nm pid2).isSome with _ | _
      · by_cases hq : pid = pid2
        · subst hq
          simp [linkStep, hpar, hsome, linkChild]
        · simp [linkStep, hpar, hsome, linkChild, hq, Ne.symm hq]
      · by_cases hq : pid = pid2
        · subst hq
          simp [linkStep, hpar, hsome, linkChild, nodeAt]
        · simp [linkStep, hpar, hsome, linkChild, hq, Ne.symm hq]

end App

namespace App

/-- Lookup in the node-map fold, relative to any starting map: the result
is the node of the last row with the looked-up id, if any. -/
theorem nodeMapFold_lookup (render : String → String) (now : ℤ) (opts : BuildTreeOpts)
    (rows : List ListCommentsByStoryRow) (m : ℤ → Option CNode) (id : ℤ) :
    (rows.foldl
        (fun m r => fun i => if i = r.ID then some (buildNode render now opts r) else m i)
        m) id
      = match rows.reverse.find? (fun r => r.ID == id) with
        | some r => some (buildNode render now opts r)
        | none => m id := by
  induction rows generalizing m with
  | nil => simp
  | cons r rs ih =>
    simp only [List.foldl_cons, List.reverse_cons]
    rw [ih, List.find?_append]
    rcases hfind : rs.reverse.find? (fun r2 => r2.ID == id) with _ | r2 <;> rw [hfind]
    · simp only [Option.none_or]
      by_cases hid : id = r.ID
      · simp [List.find?_cons, hid]
      · have hbeq : (r.ID == id) = false := by
          simp only [beq_eq_false_iff_ne, ne_eq]
          exact fun h => hid h.symm
        simp [List.find?_cons, hbeq, hid]
    · simp

end App

namespace App

/-- The node map resolves an id precisely when some row carries it. -/
theorem nodeMapOf_isSome_iff (render : String → String) (now : ℤ) (opts : BuildTreeOpts)
    (rows : List ListCommentsByStoryRow) (id : ℤ) :
    (nodeMapOf render now opts rows id).isSome = true ↔ id ∈ rows.map (fun r => r.ID) := by
  unfold nodeMapOf
  rw [nodeMapFold_lookup]
  rcases hfind : rows.reverse.find? (fun r => r.ID == id) with _ | r <;> rw [hfind]
  · simp only [Option.isSome_none, Bool.false_eq_true, false_iff]
    rw [List.find?_eq_none] at hfind
    intro h
    obtain ⟨r, hr, hrid⟩ := List.mem_map.mp h
    exact hfind r (List.mem_reverse.mpr hr) (by simp [hrid])
  · simp only [Option.isSome_some, true_iff]
    have h1 := List.find?_some hfind
    have h2 := List.mem_reverse.mp (List.mem_of_find?_eq_some hfind)
    exact List.mem_map.mpr ⟨r, h2, by simpa using h1⟩

/-- A successful node-map lookup returns a node carrying the looked-up id. -/
theorem nodeMapOf_ID (render : String → String) (now : ℤ) (opts : BuildTreeOpts)
    (rows : List ListCommentsByStoryRow) (id : ℤ) (nd : CNode)
    (h : nodeMapOf render now opts rows id = some nd) : nd.ID = id := by
  unfold nodeMapOf at h
  rw [nodeMapFold_lookup] at h
  rcases hfind : rows.reverse.find? (fun r => r.ID == id) with _ | r <;> rw [hfind] at h
  · exact absurd h (by simp)
  · have h1 := List.find?_some hfind
    have h2 : nd = buildNode render now opts r := by
      injection h with h3
      exact h3.symm
    subst h2
    simpa [buildNode] using h1

/-- With pairwise distinct ids, the node map sends the id of a row to the
node built from that row. -/
theorem nodeMapOf_mem (render : String → String) (now : ℤ) (opts : BuildTreeOpts)
    (rows : List ListCommentsByStoryRow) (r : ListCommentsByStoryRow)
    (hnodup : (rows.map (fun r => r.ID)).Nodup) (hr : r ∈ rows) :
    nodeMapOf render now opts rows r.ID = some (buildNode render now opts r) := by
  unfold nodeMapOf
  rw [nodeMapFold_lookup]
  rcases hfind : rows.reverse.find? (fun r2 => r2.ID == r.ID) with _ | r2 <;> rw [hfind]
  · rw [List.find?_eq_none] at hfind
    exact absurd (by simp) (hfind r (List.mem_reverse.mpr hr))
  · have h1 : r2.ID = r.ID := by simpa using List.find?_some hfind
    have h2 := List.mem_reverse.mp (List.mem_of_find?_eq_some hfind)
    have : r2 = r := by
      by_contra hne
      have hinj := List.inj_on_of_nodup_map hnodup
      exact hne (hinj h2 hr h1)
    rw [this]

end App

section ClaimC9

open App

/-- C9: every row whose declared parent id matches no row in the supplied
set is promoted to a root of the output forest: a node with its id is in
the returned root list (the row is neither dropped nor an error raised,
the builder being total). -/
theorem orphan_row_promoted_to_root (render : String → String) (now : ℤ)
    (rows : List ListCommentsByStoryRow) (opts : BuildTreeOpts)
    (r : ListCommentsByStoryRow) (pid : ℤ) (hr : r ∈ rows) (hp : r.ParentID = some pid)
    (hnp : pid ∉ rows.map (fun r => r.ID)) :
    ∃ nd ∈ (buildCommentTree render now rows opts).roots, nd.ID = r.ID := by
  set nm := nodeMapOf render now opts rows with hnm
  have hsome : (nm pid).isSome = false := by
    rcases h : (nm pid).isSome with _ | _
    · rfl
    · exact absurd ((nodeMapOf_isSome_iff render now opts rows pid).mp h) hnp
  have hatt : linkAttaches nm r = false := by
    unfold linkAttaches
    rw [hp]
    exact hsome
  have hroots : (buildCommentTree render now rows opts).roots
      = sortByWilson (linkPass nm rows).1 := rfl
  have hpre : (linkPass nm rows).1
      = (rows.filter (fun r => !(linkAttaches nm r))).map (nodeAt nm) := by
    unfold linkPass
    rw [linkFold_roots]
    simp
  have hmem : nodeAt nm r ∈ (linkPass nm rows).1 := by
    rw [hpre]
    exact List.mem_map.mpr ⟨r, List.mem_filter.mpr ⟨hr, by rw [hatt]; rfl⟩, rfl⟩
  have hrsome : (nm r.ID).isSome = true := by
    exact (nodeMapOf_isSome_iff render now opts rows r.ID).mpr
      (List.mem_map.mpr ⟨r, hr, rfl⟩)
  obtain ⟨nd, hnd⟩ := Option.isSome_iff_exists.mp hrsome
  refine ⟨nodeAt nm r, ?_, ?_⟩
  · rw [hroots]
    unfold sortByWilson
    exact List.mem_mergeSort.mpr hmem
  · unfold nodeAt
    rw [hnd]
    exact nodeMapOf_ID render now opts rows r.ID nd hnd

end ClaimC9

namespace App

/-- Identity renderer used for concrete instances. -/
def idRender : String → String := fun s => s

/-- Baseline options used for concrete instances. -/
def plainOpts : BuildTreeOpts :=
  { currentUserID := 7, storySubmitterID := 3, votedMap := fun _ => false
    flaggedMap := fun _ => false, flagCountsMap := fun _ => [], lastVisit := 0
    isLoggedIn := true, storyCode := "abc123" }

/-- Concrete row with no parent. -/
def rowA : ListCommentsByStoryRow :=
  { ID := 1, StoryID := 5, UserID := 7, ParentID := none, Body := "hello"
    Depth := 0, Upvotes := 0, Downvotes := 0, CreatedAt := 0, UpdatedAt := 0
    DeletedAtValid := false, Username := "alice" }

/-- Concrete row whose declared parent id `99` matches no row. -/
def rowB : ListCommentsByStoryRow :=
  { ID := 2, StoryID := 5, UserID := 8, ParentID := some 99, Body := "orphan"
    Depth := 1, Upvotes := 0, Downvotes := 0, CreatedAt := 10, UpdatedAt := 0
    DeletedAtValid := false, Username := "bob" }

end App

section ClaimC9Witness

open App

/-- Witness for C9 at the concrete two-row input with an orphan row. -/
theorem orphan_row_promoted_to_root_witness :
    rowB ∈ [rowA, rowB] ∧ rowB.ParentID = some 99 ∧
      (99 : ℤ) ∉ [rowA, rowB].map (fun r => r.ID) ∧
      ∃ nd ∈ (buildCommentTree idRender 0 [rowA, rowB] plainOpts).roots, nd.ID = rowB.ID :=
  ⟨by decide, by decide, by decide,
    orphan_row_promoted_to_root idRender 0 [rowA, rowB] plainOpts rowB 99
      (by decide) (by decide) (by decide)⟩

end ClaimC9Witness

namespace App

/-- Wilson confidence score of a node, computed from its own counts. -/
noncomputable def wscore (x : CNode) : ℝ :=
  Rank.WilsonScore x.Upvotes x.Downvotes

/-- Sibling ordering demanded by the spec: Wilson score descending with
creation time ascending as the tie break. -/
def wilsonTimeLE (x y : CNode) : Prop :=
  wscore y < wscore x ∨ (wscore x = wscore y ∧ x.CreatedAt ≤ y.CreatedAt)

/-- Characterisation of the comparator. -/
theorem commentLess_iff (x y : CNode) :
    commentLess x y = true ↔
      (wscore y < wscore x ∨ (wscore x = wscore y ∧ x.CreatedAt < y.CreatedAt)) := by
  unfold commentLess wscore
  by_cases h : Rank.WilsonScore x.Upvotes x.Downvotes = Rank.WilsonScore y.Upvotes y.Downvotes
  · rw [if_neg (by simp [h])]
    simp only [decide_eq_true_eq]
    constructor
    · intro h2
      exact Or.inr ⟨h, h2⟩
    · rintro (h2 | ⟨_, h2⟩)
      · exact absurd h h2.ne'
      · exact h2
  · rw [if_pos h]
    simp only [decide_eq_true_eq]
    constructor
    · exact Or.inl
    · rintro (h2 | ⟨h2, _⟩)
      · exact h2
      · exact absurd h2 h

end App

namespace App

/-- Characterisation of the stable-sort predicate. -/
theorem sliceStableLE_iff (x y : CNode) :
    sliceStableLE x y = true ↔ wilsonTimeLE x y := by
  unfold sliceStableLE wilsonTimeLE
  rw [Bool.not_eq_true']
  rw [show (commentLess y x = false) ↔ ¬ (commentLess y x = true) by simp]
  rw [commentLess_iff]
  push_neg
  constructor
  · rintro ⟨h1, h2⟩
    rcases lt_or_eq_of_le h1 with h | h
    · exact Or.inl h
    · exact Or.inr ⟨h.symm, h2 h⟩
  · rintro (h | ⟨h1, h2⟩)
    · exact ⟨h.le, fun heq => absurd heq h.ne⟩
    · exact ⟨le_of_eq h1.symm, fun _ => h2⟩

/-- Totality of the stable-sort predicate. -/
theorem sliceStableLE_total (x y : CNode) :
    sliceStableLE x y || sliceStableLE y x := by
  by_cases h : sliceStableLE x y = true
  · simp [h]
  · have hx := (not_iff_not.mpr (sliceStableLE_iff x y)).mp h
    have hyx : wilsonTimeLE y x := by
      unfold wilsonTimeLE at hx ⊢
      push_neg at hx
      rcases lt_or_eq_of_le hx.1 with h2 | h2
      · exact Or.inl h2
      · exact Or.inr ⟨h2.symm, (hx.2 h2).le⟩
    simp [(sliceStableLE_iff y x).mpr hyx]

/-- Transitivity of the stable-sort predicate. -/
theorem sliceStableLE_trans (x y z : CNode) (h1 : sliceStableLE x y)
    (h2 : sliceStableLE y z) : sliceStableLE x z := by
  rw [sliceStableLE_iff] at h1 h2 ⊢
  unfold wilsonTimeLE at h1 h2 ⊢
  rcases h1 with h1 | ⟨h1a, h1b⟩
  · rcases h2 with h2 | ⟨h2a, h2b⟩
    · exact Or.inl (h2.trans h1)
    · exact Or.inl (h2a ▸ h1)
  · rcases h2 with h2 | ⟨h2a, h2b⟩
    · exact Or.inl (h1a ▸ h2)
    · exact Or.inr ⟨h1a.trans h2a, h1b.trans h2b⟩

/-- Lists with at most one element are pairwise ordered. -/
theorem pairwise_of_short {R : CNode → CNode → Prop} (l : List CNode)
    (h : ¬ 1 < l.length) : l.Pairwise R := by
  match l with
  | [] => exact List.Pairwise.nil
  | [a] => exact List.pairwise_singleton R a
  | a :: b :: t => simp at h

end App

section ClaimC3

open App

/-- C3: in the forest returned by `buildCommentTree`, the root list and
every child list are sorted by Wilson confidence score (computed from the
own upvote/downvote counts of each comment) descending with ties broken
by creation time ascending, and the sort is stable: two siblings equal in
both score and creation time keep, in the output, the relative order they
had in the sibling list assembled by the linking pass (which lists them
in row order). -/
theorem commentTree_sibling_order (render : String → String) (now : ℤ)
    (rows : List ListCommentsByStoryRow) (opts : BuildTreeOpts) :
    ((buildCommentTree render now rows opts).roots.Pairwise wilsonTimeLE)
    ∧ (∀ pid, ((buildCommentTree render now rows opts).childrenOf pid).Pairwise wilsonTimeLE)
    ∧ (∀ x y, wscore x = wscore y → x.CreatedAt = y.CreatedAt →
        (List.Sublist [x, y] (linkPass (nodeMapOf render now opts rows) rows).1 →
          List.Sublist [x, y] (buildCommentTree render now rows opts).roots)
        ∧ (∀ pid, List.Sublist [x, y] ((linkPass (nodeMapOf render now opts rows) rows).2 pid) →
            List.Sublist [x, y] ((buildCommentTree render now rows opts).childrenOf pid))) := by
  have hpw : ∀ l : List CNode, (sortByWilson l).Pairwise wilsonTimeLE := by
    intro l
    have h := @List.sorted_mergeSort CNode sliceStableLE
      (fun a b c hab hbc => sliceStableLE_trans a b c hab hbc)
      (fun a b => sliceStableLE_total a b) l
    exact h.imp (fun {a b} hab => (sliceStableLE_iff a b).mp hab)
  have hstab : ∀ (x y : CNode), wscore x = wscore y → x.CreatedAt = y.CreatedAt →
      ∀ l : List CNode, List.Sublist [x, y] l → List.Sublist [x, y] (sortByWilson l) := by
    intro x y hs ht l hl
    have hxy : sliceStableLE x y = true := by
      refine (sliceStableLE_iff x y).mpr ?_
      exact Or.inr ⟨hs, le_of_eq ht⟩
    exact List.sublist_mergeSort
      (fun a b c hab hbc => sliceStableLE_trans a b c hab hbc)
      (fun a b => sliceStableLE_total a b)
      (List.pairwise_pair.mpr hxy) hl
  refine ⟨hpw _, ?_, ?_⟩
  · intro pid
    show (if 1 < ((linkPass (nodeMapOf render now opts rows) rows).2 pid).length
        then sortByWilson ((linkPass (nodeMapOf render now opts rows) rows).2 pid)
        else (linkPass (nodeMapOf render now opts rows) rows).2 pid).Pairwise wilsonTimeLE
    split
    · exact hpw _
    · exact pairwise_of_short _ (by assumption)
  · intro x y hs ht
    refine ⟨fun hl => hstab x y hs ht _ hl, ?_⟩
    intro pid hl
    show List.Sublist [x, y] (if 1 < ((linkPass (nodeMapOf render now opts rows) rows).2 pid).length
        then sortByWilson ((linkPass (nodeMapOf render now opts rows) rows).2 pid)
        else (linkPass (nodeMapOf render now opts rows) rows).2 pid)
    split
    · exact hstab x y hs ht _ hl
    · exact hl

end ClaimC3

namespace App

/-- Concrete sibling row (votes 2 up, 1 down, created at 50). -/
def rowC : ListCommentsByStoryRow :=
  { ID := 11, StoryID := 5, UserID := 7, ParentID := none, Body := "first"
    Depth := 0, Upvotes := 2, Downvotes := 1, CreatedAt := 50, UpdatedAt := 0
    DeletedAtValid := false, Username := "alice" }

/-- Concrete sibling row identical to `rowC` in votes and creation time. -/
def rowD : ListCommentsByStoryRow :=
  { ID := 12, StoryID := 5, UserID := 8, ParentID := none, Body := "second"
    Depth := 0, Upvotes := 2, Downvotes := 1, CreatedAt := 50, UpdatedAt := 0
    DeletedAtValid := false, Username := "bob" }

/-- Node of `rowC` as stored by the node map. -/
noncomputable def nodeC : CNode := nodeAt (nodeMapOf idRender 0 plainOpts [rowC, rowD]) rowC

/-- Node of `rowD` as stored by the node map. -/
noncomputable def nodeD : CNode := nodeAt (nodeMapOf idRender 0 plainOpts [rowC, rowD]) rowD

end App

section ClaimC3Witness

open App

/-- Witness for C3: two sibling rows equal in votes and creation time
keep their original relative order in the sorted root list. -/
theorem commentTree_sibling_order_witness :
    wscore nodeC = wscore nodeD ∧ nodeC.CreatedAt = nodeD.CreatedAt ∧
    List.Sublist [nodeC, nodeD] (linkPass (nodeMapOf idRender 0 plainOpts [rowC, rowD]) [rowC, rowD]).1 ∧
    List.Sublist [nodeC, nodeD] (buildCommentTree idRender 0 [rowC, rowD] plainOpts).roots := by
  have hs : wscore nodeC = wscore nodeD := rfl
  have ht : nodeC.CreatedAt = nodeD.CreatedAt := rfl
  have hsub : List.Sublist [nodeC, nodeD]
      (linkPass (nodeMapOf idRender 0 plainOpts [rowC, rowD]) [rowC, rowD]).1 := by
    show List.Sublist [nodeC, nodeD] [nodeC, nodeD]
    exact List.Sublist.refl _
  exact ⟨hs, ht, hsub,
    ((commentTree_sibling_order idRender 0 [rowC, rowD] plainOpts).2.2 nodeC nodeD hs ht).1 hsub⟩

end ClaimC3Witness

section ClaimC5Cex

open App

/-- C5 counterexample: `buildCommentTree` reads the wall clock through
`time.Since` when computing `CanEdit`, so two invocations on identical
rows and context made at different instants (1 minute and 10 minutes
after the comment was created) give different forests. -/
theorem buildCommentTree_wall_clock_cex :
    buildCommentTree idRender (60 * 1000000000) [rowA] plainOpts
      ≠ buildCommentTree idRender (600 * 1000000000) [rowA] plainOpts := by
  intro h
  have h1 : (buildCommentTree idRender (60 * 1000000000) [rowA] plainOpts).roots
      = (buildCommentTree idRender (600 * 1000000000) [rowA] plainOpts).roots := by rw [h]
  have e1 : (buildCommentTree idRender (60 * 1000000000) [rowA] plainOpts).roots
      = [nodeAt (nodeMapOf idRender (60 * 1000000000) plainOpts [rowA]) rowA] := by
    show sortByWilson [nodeAt (nodeMapOf idRender (60 * 1000000000) plainOpts [rowA]) rowA] = _
    exact List.mergeSort_singleton _
  have e2 : (buildCommentTree idRender (600 * 1000000000) [rowA] plainOpts).roots
      = [nodeAt (nodeMapOf idRender (600 * 1000000000) plainOpts [rowA]) rowA] := by
    show sortByWilson [nodeAt (nodeMapOf idRender (600 * 1000000000) plainOpts [rowA]) rowA] = _
    exact List.mergeSort_singleton _
  rw [e1, e2] at h1
  have h2 : (nodeAt (nodeMapOf idRender (60 * 1000000000) plainOpts [rowA]) rowA).CanEdit
      = (nodeAt (nodeMapOf idRender (600 * 1000000000) plainOpts [rowA]) rowA).CanEdit := by
    rw [List.cons.injEq] at h1
    rw [h1.1]
  have h3 : (nodeAt (nodeMapOf idRender (60 * 1000000000) plainOpts [rowA]) rowA).CanEdit
      = true := by decide
  have h4 : (nodeAt (nodeMapOf idRender (600 * 1000000000) plainOpts [rowA]) rowA).CanEdit
      = false := by decide
  rw [h3, h4] at h2
  exact absurd h2 (by decide)

end ClaimC5Cex

namespace App

/-- Forget the only wall-clock-dependent display field. -/
def stripCanEdit (x : CNode) : CNode := { x with CanEdit := false }

/-- Node construction depends on the clock only through `CanEdit`. -/
theorem strip_buildNode (render : String → String) (now1 now2 : ℤ)
    (opts : BuildTreeOpts) (r : ListCommentsByStoryRow) :
    stripCanEdit (buildNode render now1 opts r)
      = stripCanEdit (buildNode render now2 opts r) := by
  simp [buildNode, stripCanEdit]

/-- The node map depends on the clock only through `CanEdit`. -/
theorem strip_nodeMapOf (render : String → String) (now1 now2 : ℤ)
    (opts : BuildTreeOpts) (rows : List ListCommentsByStoryRow) (id : ℤ) :
    (nodeMapOf render now1 opts rows id).map stripCanEdit
      = (nodeMapOf render now2 opts rows id).map stripCanEdit := by
  unfold nodeMapOf
  rw [nodeMapFold_lookup, nodeMapFold_lookup]
  rcases hfind : rows.reverse.find? (fun r => r.ID == id) with _ | r <;> rw [hfind]
  simpa using strip_buildNode render now1 now2 opts r

/-- Resolution of ids in the node map does not depend on the clock. -/
theorem isSome_nodeMapOf (render : String → String) (now1 now2 : ℤ)
    (opts : BuildTreeOpts) (rows : List ListCommentsByStoryRow) (id : ℤ) :
    (nodeMapOf render now1 opts rows id).isSome
      = (nodeMapOf render now2 opts rows id).isSome := by
  have h := strip_nodeMapOf render now1 now2 opts rows id
  rcases h1 : nodeMapOf render now1 opts rows id with _ | n1 <;>
    rcases h2 : nodeMapOf render now2 opts rows id with _ | n2 <;>
      rw [h1, h2] at h <;> simp_all

/-- Stored nodes agree after forgetting `CanEdit`. -/
theorem strip_nodeAt (render : String → String) (now1 now2 : ℤ)
    (opts : BuildTreeOpts) (rows : List ListCommentsByStoryRow)
    (r : ListCommentsByStoryRow) :
    stripCanEdit (nodeAt (nodeMapOf render now1 opts rows) r)
      = stripCanEdit (nodeAt (nodeMapOf render now2 opts rows) r) := by
  unfold nodeAt
  have h := strip_nodeMapOf render now1 now2 opts rows r.ID
  rcases h1 : nodeMapOf render now1 opts rows r.ID with _ | n1 <;>
    rcases h2 : nodeMapOf render now2 opts rows r.ID with _ | n2 <;>
    rw [h1, h2] at h <;> simp at h <;> simp [h]

end App

namespace App

/-- Attachment decisions do not depend on the clock. -/
theorem linkAttaches_clock (render : String → String) (now1 now2 : ℤ)
    (opts : BuildTreeOpts) (rows : List ListCommentsByStoryRow)
    (r : ListCommentsByStoryRow) :
    linkAttaches (nodeMapOf render now1 opts rows) r
      = linkAttaches (nodeMapOf render now2 opts rows) r := by
  unfold linkAttaches
  rcases r.ParentID with _ | pid
  · rfl
  · exact isSome_nodeMapOf render now1 now2 opts rows pid

/-- Child-list membership decisions do not depend on the clock. -/
theorem linkChild_clock (render : String → String) (now1 now2 : ℤ)
    (opts : BuildTreeOpts) (rows : List ListCommentsByStoryRow) (pid : ℤ)
    (r : ListCommentsByStoryRow) :
    linkChild (nodeMapOf render now1 opts rows) pid r
      = linkChild (nodeMapOf render now2 opts rows) pid r := by
  unfold linkChild
  rw [isSome_nodeMapOf render now1 now2 opts rows pid]

/-- Roots of the linking pass agree after forgetting `CanEdit`. -/
theorem strip_link_roots (render : String → String) (now1 now2 : ℤ)
    (opts : BuildTreeOpts) (rows : List ListCommentsByStoryRow) :
    ((linkPass (nodeMapOf render now1 opts rows) rows).1).map stripCanEdit
      = ((linkPass (nodeMapOf render now2 opts rows) rows).1).map stripCanEdit := by
  unfold linkPass
  rw [linkFold_roots, linkFold_roots]
  simp only [List.nil_append, List.map_map]
  rw [List.filter_congr (fun r _ => by rw [linkAttaches_clock render now1 now2 opts rows r])]
  exact List.map_congr_left (fun r _ => strip_nodeAt render now1 now2 opts rows r)

/-- Child lists of the linking pass agree after forgetting `CanEdit`. -/
theorem strip_link_children (render : String → String) (now1 now2 : ℤ)
    (opts : BuildTreeOpts) (rows : List ListCommentsByStoryRow) (pid : ℤ) :
    ((linkPass (nodeMapOf render now1 opts rows) rows).2 pid).map stripCanEdit
      = ((linkPass (nodeMapOf render now2 opts rows) rows).2 pid).map stripCanEdit := by
  unfold linkPass
  rw [linkFold_children, linkFold_children]
  simp only [List.nil_append, List.map_map]
  rw [List.filter_congr (fun r _ => by rw [linkChild_clock render now1 now2 opts rows pid r])]
  exact List.map_congr_left (fun r _ => strip_nodeAt render now1 now2 opts rows r)

/-- Sorting commutes with forgetting `CanEdit` (the comparator never
reads that field). -/
theorem strip_sortByWilson (l : List CNode) :
    (sortByWilson l).map stripCanEdit = sortByWilson (l.map stripCanEdit) := by
  unfold sortByWilson
  exact List.map_mergeSort (fun a _ b _ => rfl)

end App

section ClaimC5Amended

open App

/-- C5 (amended): `buildCommentTree` is a pure function of the rows, the
context bundle, the renderer and the evaluation instant; two invocations
made at possibly different instants agree on the entire forest up to the
`CanEdit` display field (and exactly agree when the instants coincide,
the builder being a function). -/
theorem buildCommentTree_pure_mod_canEdit (render : String → String)
    (now1 now2 : ℤ) (rows : List ListCommentsByStoryRow) (opts : BuildTreeOpts) :
    ((buildCommentTree render now1 rows opts).roots.map stripCanEdit
      = (buildCommentTree render now2 rows opts).roots.map stripCanEdit)
    ∧ (∀ pid, ((buildCommentTree render now1 rows opts).childrenOf pid).map stripCanEdit
      = ((buildCommentTree render now2 rows opts).childrenOf pid).map stripCanEdit) := by
  constructor
  · show (sortByWilson (linkPass (nodeMapOf render now1 opts rows) rows).1).map stripCanEdit
      = (sortByWilson (linkPass (nodeMapOf render now2 opts rows) rows).1).map stripCanEdit
    rw [strip_sortByWilson, strip_sortByWilson,
      strip_link_roots render now1 now2 opts rows]
  · intro pid
    have hlen : ((linkPass (nodeMapOf render now1 opts rows) rows).2 pid).length
        = ((linkPass (nodeMapOf render now2 opts rows) rows).2 pid).length := by
      have h := strip_link_children render now1 now2 opts rows pid
      calc ((linkPass (nodeMapOf render now1 opts rows) rows).2 pid).length
          = (((linkPass (nodeMapOf render now1 opts rows) rows).2 pid).map
              stripCanEdit).length := by rw [List.length_map]
        _ = (((linkPass (nodeMapOf render now2 opts rows) rows).2 pid).map
              stripCanEdit).length := by rw [h]
        _ = ((linkPass (nodeMapOf render now2 opts rows) rows).2 pid).length := by
              rw [List.length_map]
    show (if 1 < ((linkPass (nodeMapOf render now1 opts rows) rows).2 pid).length
        then sortByWilson ((linkPass (nodeMapOf render now1 opts rows) rows).2 pid)
        else (linkPass (nodeMapOf render now1 opts rows) rows).2 pid).map stripCanEdit
      = (if 1 < ((linkPass (nodeMapOf render now2 opts rows) rows).2 pid).length
        then sortByWilson ((linkPass (nodeMapOf render now2 opts rows) rows).2 pid)
        else (linkPass (nodeMapOf render now2 opts rows) rows).2 pid).map stripCanEdit
    rw [hlen]
    split
    · rw [strip_sortByWilson, strip_sortByWilson,
        strip_link_children render now1 now2 opts rows pid]
    · exact strip_link_children render now1 now2 opts rows pid

end ClaimC5Amended

namespace Rank

/-- Wilson interval radicand as a function of proportion and sample size. -/
noncomputable def wg (p N : ℝ) : ℝ := (p * (1 - p) + zval * zval / (4 * N)) / N

/-- Lower Wilson bound as a function of proportion and sample size. -/
noncomputable def wilsonLB (p N : ℝ) : ℝ :=
  (p + zval * zval / (2 * N) - zval * Real.sqrt (wg p N)) / (1 + zval * zval / N)

/-- Upper Wilson bound, the other root of the Wilson quadratic. -/
noncomputable def wilsonUB (p N : ℝ) : ℝ :=
  (p + zval * zval / (2 * N) + zval * Real.sqrt (wg p N)) / (1 + zval * zval / N)

/-- Positivity of the confidence constant. -/
theorem zval_pos : 0 < zval := by norm_num [zval]

/-- Nonnegativity of the radicand on admissible inputs. -/
theorem wg_nonneg (p N : ℝ) (hN : 0 < N) (hp0 : 0 ≤ p) (hp1 : p ≤ 1) :
    0 ≤ wg p N := by
  unfold wg
  have h1 : 0 ≤ p * (1 - p) := mul_nonneg hp0 (by linarith)
  have h2 : 0 < zval * zval / (4 * N) :=
    div_pos (mul_pos zval_pos zval_pos) (by linarith)
  exact div_nonneg (by linarith) hN.le

/-- Positivity of the common denominator. -/
theorem wD_pos (N : ℝ) (hN : 0 < N) : 0 < 1 + zval * zval / N := by
  have h := div_nonneg (mul_nonneg zval_pos.le zval_pos.le) hN.le
  linarith

/-- The score of an input with votes equals the lower Wilson bound at the
observed proportion. -/
theorem wilsonScore_eq (u d : ℤ) (h : u + d ≠ 0) :
    WilsonScore u d = wilsonLB ((u : ℝ) / ((u : ℝ) + (d : ℝ))) ((u : ℝ) + (d : ℝ)) := by
  unfold WilsonScore wilsonLB wg
  have hcast : ((u + d : ℤ) : ℝ) = (u : ℝ) + (d : ℝ) := by push_cast; ring
  rw [if_neg (by rw [hcast] at *; exact fun h2 => h (by exact_mod_cast (hcast ▸ h2)))]
  rw [hcast]

/-- Sum of the two Wilson roots. -/
theorem wilson_sum (p N : ℝ) :
    wilsonLB p N + wilsonUB p N
      = (2 * p + zval * zval / N) / (1 + zval * zval / N) := by
  unfold wilsonLB wilsonUB
  rw [div_add_div_same]
  ring_nf

/-- Product of the two Wilson roots. -/
theorem wilson_prod (p N : ℝ) (hN : 0 < N) (hp0 : 0 ≤ p) (hp1 : p ≤ 1) :
    wilsonLB p N * wilsonUB p N = p ^ 2 / (1 + zval * zval / N) := by
  have hg := wg_nonneg p N hN hp0 hp1
  have hs : Real.sqrt (wg p N) ^ 2 = wg p N := Real.sq_sqrt hg
  have hN' : N ≠ 0 := ne_of_gt hN
  have hD' : (1 + zval * zval / N) ≠ 0 := ne_of_gt (wD_pos N hN)
  unfold wilsonLB wilsonUB
  rw [div_mul_div_comm]
  have hnum : (p + zval * zval / (2 * N) - zval * Real.sqrt (wg p N))
      * (p + zval * zval / (2 * N) + zval * Real.sqrt (wg p N))
      = (p + zval * zval / (2 * N)) ^ 2 - zval ^ 2 * Real.sqrt (wg p N) ^ 2 := by
    ring
  rw [hnum, hs]
  unfold wg
  rw [div_eq_div_iff (mul_ne_zero hD' hD') hD']
  field_simp
  ring

end Rank

namespace Rank

/-- Difference of the two Wilson roots. -/
theorem wilson_diff (p N : ℝ) :
    wilsonUB p N - wilsonLB p N
      = 2 * zval * Real.sqrt (wg p N) / (1 + zval * zval / N) := by
  unfold wilsonLB wilsonUB
  rw [div_sub_div_same]
  ring_nf

/-- The lower root is at most the upper root. -/
theorem wilsonLB_le_UB (p N : ℝ) (hN : 0 < N) : wilsonLB p N ≤ wilsonUB p N := by
  have h := wilson_diff p N
  have h2 : 0 ≤ 2 * zval * Real.sqrt (wg p N) / (1 + zval * zval / N) :=
    div_nonneg (by
      have := Real.sqrt_nonneg (wg p N)
      have := zval_pos
      nlinarith) (wD_pos N hN).le
  linarith

/-- The upper root is positive. -/
theorem wilsonUB_pos (p N : ℝ) (hN : 0 < N) (hp0 : 0 ≤ p) : 0 < wilsonUB p N := by
  unfold wilsonUB
  apply div_pos ?_ (wD_pos N hN)
  have h1 : 0 < zval * zval / (2 * N) := div_pos (mul_pos zval_pos zval_pos) (by linarith)
  have h2 : 0 ≤ zval * Real.sqrt (wg p N) :=
    mul_nonneg zval_pos.le (Real.sqrt_nonneg _)
  linarith

/-- The lower root is nonnegative. -/
theorem wilsonLB_nonneg (p N : ℝ) (hN : 0 < N) (hp0 : 0 ≤ p) (hp1 : p ≤ 1) :
    0 ≤ wilsonLB p N := by
  have hprod := wilson_prod p N hN hp0 hp1
  have hU := wilsonUB_pos p N hN hp0
  have h1 : 0 ≤ wilsonLB p N * wilsonUB p N := by
    rw [hprod]
    exact div_nonneg (sq_nonneg p) (wD_pos N hN).le
  nlinarith [h1, hU]

/-- Factorisation of the Wilson quadratic through its two roots. -/
theorem wilson_quad_factor (p N : ℝ) (hN : 0 < N) (hp0 : 0 ≤ p) (hp1 : p ≤ 1) (x : ℝ) :
    (p - x) ^ 2 - zval * zval * x * (1 - x) / N
      = (1 + zval * zval / N) * ((x - wilsonLB p N) * (x - wilsonUB p N)) := by
  have hsum := wilson_sum p N
  have hprod := wilson_prod p N hN hp0 hp1
  have hN' : N ≠ 0 := ne_of_gt hN
  have hD' : (1 + zval * zval / N) ≠ 0 := ne_of_gt (wD_pos N hN)
  have hexp : (x - wilsonLB p N) * (x - wilsonUB p N)
      = x ^ 2 - (wilsonLB p N + wilsonUB p N) * x + wilsonLB p N * wilsonUB p N := by
    ring
  have hDS : (1 + zval * zval / N) * ((2 * p + zval * zval / N) / (1 + zval * zval / N))
      = 2 * p + zval * zval / N := by
    rw [← mul_div_assoc]
    exact mul_div_cancel_left₀ _ hD'
  have hDP : (1 + zval * zval / N) * (p ^ 2 / (1 + zval * zval / N)) = p ^ 2 := by
    rw [← mul_div_assoc]
    exact mul_div_cancel_left₀ _ hD'
  calc (p - x) ^ 2 - zval * zval * x * (1 - x) / N
      = (1 + zval * zval / N) * x ^ 2 - (2 * p + zval * zval / N) * x + p ^ 2 := by
        field_simp
        ring
    _ = (1 + zval * zval / N) * x ^ 2
          - ((1 + zval * zval / N) * ((2 * p + zval * zval / N) / (1 + zval * zval / N))) * x
          + (1 + zval * zval / N) * (p ^ 2 / (1 + zval * zval / N)) := by rw [hDS, hDP]
    _ = (1 + zval * zval / N)
          * ((x - wilsonLB p N) * (x - wilsonUB p N)) := by
        rw [hexp, hsum, hprod]
        ring

end Rank

namespace Rank

/-- Value of the Wilson quadratic at the observed proportion. -/
theorem wilson_quad_at_p (p N : ℝ) (hN : 0 < N) (hp0 : 0 ≤ p) (hp1 : p ≤ 1) :
    (1 + zval * zval / N) * ((p - wilsonLB p N) * (p - wilsonUB p N))
      = -(zval * zval * p * (1 - p) / N) := by
  have h := wilson_quad_factor p N hN hp0 hp1 p
  have h2 : (p - p) ^ 2 - zval * zval * p * (1 - p) / N
      = -(zval * zval * p * (1 - p) / N) := by ring
  linarith [h, h2]

/-- The lower root lies below the observed proportion. -/
theorem wilsonLB_le_p (p N : ℝ) (hN : 0 < N) (hp0 : 0 ≤ p) (hp1 : p ≤ 1) :
    wilsonLB p N ≤ p := by
  by_contra hlt
  push_neg at hlt
  have hD := wD_pos N hN
  have hLU := wilsonLB_le_UB p N hN
  have hQ := wilson_quad_at_p p N hN hp0 hp1
  have hq : 0 ≤ zval * zval * p * (1 - p) / N :=
    div_nonneg (mul_nonneg (mul_nonneg (mul_nonneg zval_pos.le zval_pos.le) hp0)
      (by linarith)) hN.le
  have h1 : p - wilsonLB p N < 0 := by linarith
  have h2 : p - wilsonUB p N < 0 := by linarith
  nlinarith [mul_pos_of_neg_of_neg h1 h2]

/-- The upper root lies above the observed proportion. -/
theorem p_le_wilsonUB (p N : ℝ) (hN : 0 < N) (hp0 : 0 ≤ p) (hp1 : p ≤ 1) :
    p ≤ wilsonUB p N := by
  by_contra hlt
  push_neg at hlt
  have hD := wD_pos N hN
  have hLU := wilsonLB_le_UB p N hN
  have hQ := wilson_quad_at_p p N hN hp0 hp1
  have hq : 0 ≤ zval * zval * p * (1 - p) / N :=
    div_nonneg (mul_nonneg (mul_nonneg (mul_nonneg zval_pos.le zval_pos.le) hp0)
      (by linarith)) hN.le
  have h1 : p - wilsonLB p N > 0 := by linarith
  have h2 : p - wilsonUB p N > 0 := by linarith
  nlinarith [mul_pos h1 h2]

/-- The lower bound is a root of the Wilson quadratic. -/
theorem wilsonLB_root (p N : ℝ) (hN : 0 < N) (hp0 : 0 ≤ p) (hp1 : p ≤ 1) :
    (p - wilsonLB p N) ^ 2
      = zval * zval * wilsonLB p N * (1 - wilsonLB p N) / N := by
  have h := wilson_quad_factor p N hN hp0 hp1 (wilsonLB p N)
  have h2 : (wilsonLB p N - wilsonLB p N) * (wilsonLB p N - wilsonUB p N) = 0 := by ring
  rw [h2, mul_zero] at h
  linarith [h]

end Rank

namespace Rank

/-- At proportion zero the lower Wilson bound is zero. -/
theorem wilsonLB_zero (N : ℝ) (hN : 0 < N) : wilsonLB 0 N = 0 := by
  unfold wilsonLB wg
  have hsq : (0 * (1 - 0) + zval * zval / (4 * N)) / N = (zval / (2 * N)) ^ 2 := by
    field_simp
    ring
  rw [hsq, Real.sqrt_sq (div_nonneg zval_pos.le (by linarith))]
  have hnum : 0 + zval * zval / (2 * N) - zval * (zval / (2 * N)) = 0 := by
    field_simp
  rw [hnum, zero_div]

/-- At proportion one the lower Wilson bound is the reciprocal of the
common denominator. -/
theorem wilsonLB_one (N : ℝ) (hN : 0 < N) :
    wilsonLB 1 N = 1 / (1 + zval * zval / N) := by
  unfold wilsonLB wg
  have hsq : (1 * (1 - 1) + zval * zval / (4 * N)) / N = (zval / (2 * N)) ^ 2 := by
    field_simp
    ring
  rw [hsq, Real.sqrt_sq (div_nonneg zval_pos.le (by linarith))]
  have hnum : 1 + zval * zval / (2 * N) - zval * (zval / (2 * N)) = 1 := by
    field_simp
  rw [hnum]

/-- Below one the lower bound stays strictly below a positive proportion. -/
theorem wilsonLB_lt_p (p N : ℝ) (hN : 0 < N) (hp0 : 0 < p) (hp1 : p ≤ 1) :
    wilsonLB p N < p := by
  rcases eq_or_lt_of_le hp1 with h1 | h1
  · subst h1
    rw [wilsonLB_one N hN]
    have hD := wD_pos N hN
    have h2 : 0 < zval * zval / N := div_pos (mul_pos zval_pos zval_pos) hN
    rw [div_lt_one hD]
    linarith
  · rcases eq_or_lt_of_le (wilsonLB_le_p p N hN hp0.le hp1) with h2 | h2
    · exfalso
      have hQ := wilson_quad_at_p p N hN hp0.le hp1
      have hq : 0 < zval * zval * p * (1 - p) / N :=
        div_pos (mul_pos (mul_pos (mul_pos zval_pos zval_pos) hp0) (by linarith)) hN
      rw [h2] at hQ
      have h3 : (p - p) * (p - wilsonUB p N) = 0 := by ring
      rw [h3, mul_zero] at hQ
      linarith
    · exact h2

end Rank

section ClaimC6

open Rank

/-- C6: for every pair of nonnegative integer vote counts the Wilson
score lies in the unit interval, and the score of the empty sample is
zero. -/
theorem wilsonScore_bounds (u d : ℤ) (hu : 0 ≤ u) (hd : 0 ≤ d) :
    (0 ≤ WilsonScore u d ∧ WilsonScore u d ≤ 1) ∧ WilsonScore 0 0 = 0 := by
  have hzero : WilsonScore 0 0 = 0 := by
    unfold WilsonScore
    norm_num
  refine ⟨?_, hzero⟩
  by_cases h : u + d = 0
  · have hu0 : u = 0 := by omega
    have hd0 : d = 0 := by omega
    subst hu0
    subst hd0
    rw [hzero]
    norm_num
  · have hN : (0 : ℝ) < (u : ℝ) + (d : ℝ) := by
      have : 0 < u + d := by omega
      exact_mod_cast this
    have hp0 : 0 ≤ (u : ℝ) / ((u : ℝ) + (d : ℝ)) :=
      div_nonneg (by exact_mod_cast hu) hN.le
    have hp1 : (u : ℝ) / ((u : ℝ) + (d : ℝ)) ≤ 1 := by
      rw [div_le_one hN]
      have : (0 : ℝ) ≤ (d : ℝ) := by exact_mod_cast hd
      linarith
    rw [wilsonScore_eq u d h]
    constructor
    · exact wilsonLB_nonneg _ _ hN hp0 hp1
    · exact le_trans (wilsonLB_le_p _ _ hN hp0 hp1) hp1

/-- Witness for C6 at three upvotes and one downvote. -/
theorem wilsonScore_bounds_witness :
    ((0 : ℤ) ≤ 3 ∧ (0 : ℤ) ≤ 1) ∧
    ((0 ≤ WilsonScore 3 1 ∧ WilsonScore 3 1 ≤ 1) ∧ WilsonScore 0 0 = 0) :=
  ⟨⟨by decide, by decide⟩, wilsonScore_bounds 3 1 (by decide) (by decide)⟩

end ClaimC6

namespace Rank

/-- Monotonicity of the lower Wilson bound in the proportion. -/
theorem wilsonLB_mono_p (p1 p2 N : ℝ) (hN : 0 < N) (h0 : 0 ≤ p1) (h12 : p1 ≤ p2)
    (h2 : p2 ≤ 1) : wilsonLB p1 N ≤ wilsonLB p2 N := by
  rcases eq_or_lt_of_le h0 with hz | hpos
  · rw [← hz, wilsonLB_zero N hN]
    exact wilsonLB_nonneg p2 N hN (hz ▸ h12) h2
  · have hp11 : p1 ≤ 1 := le_trans h12 h2
    have hp20 : 0 ≤ p2 := le_trans h0 h12
    have hL1p : wilsonLB p1 N < p1 := wilsonLB_lt_p p1 N hN hpos hp11
    have hroot := wilsonLB_root p1 N hN hpos.le hp11
    have hQ2 := wilson_quad_factor p2 N hN hp20 h2 (wilsonLB p1 N)
    have hge : 0 ≤ (p2 - wilsonLB p1 N) ^ 2
        - zval * zval * wilsonLB p1 N * (1 - wilsonLB p1 N) / N := by
      rw [← hroot]
      nlinarith [hL1p, h12]
    have hU2 := p_le_wilsonUB p2 N hN hp20 h2
    by_contra hcon
    push_neg at hcon
    have hD := wD_pos N hN
    have hL1U2 : wilsonLB p1 N - wilsonUB p2 N < 0 := by linarith
    have hprodneg : (wilsonLB p1 N - wilsonLB p2 N) * (wilsonLB p1 N - wilsonUB p2 N) < 0 :=
      mul_neg_of_pos_of_neg (by linarith) hL1U2
    have hfin : (1 + zval * zval / N)
        * ((wilsonLB p1 N - wilsonLB p2 N) * (wilsonLB p1 N - wilsonUB p2 N)) < 0 :=
      mul_neg_of_pos_of_neg hD hprodneg
    linarith [hQ2, hge, hfin]

/-- Monotonicity of the lower Wilson bound in the sample size. -/
theorem wilsonLB_mono_N (p N1 N2 : ℝ) (hN1 : 0 < N1) (hN12 : N1 ≤ N2) (h0 : 0 ≤ p)
    (h1 : p ≤ 1) : wilsonLB p N1 ≤ wilsonLB p N2 := by
  have hN2 : 0 < N2 := lt_of_lt_of_le hN1 hN12
  rcases eq_or_lt_of_le h0 with hz | hpos
  · rw [← hz, wilsonLB_zero N1 hN1, wilsonLB_zero N2 hN2]
  · have hL1p : wilsonLB p N1 < p := wilsonLB_lt_p p N1 hN1 hpos h1
    have hL10 : 0 ≤ wilsonLB p N1 := wilsonLB_nonneg p N1 hN1 hpos.le h1
    have hL11 : wilsonLB p N1 ≤ 1 := le_trans (wilsonLB_le_p p N1 hN1 hpos.le h1) h1
    have hroot := wilsonLB_root p N1 hN1 hpos.le h1
    have hQ2 := wilson_quad_factor p N2 hN2 hpos.le h1 (wilsonLB p N1)
    have hq : 0 ≤ zval * zval * wilsonLB p N1 * (1 - wilsonLB p N1) :=
      mul_nonneg (mul_nonneg (mul_nonneg zval_pos.le zval_pos.le) hL10) (by linarith)
    have hge : 0 ≤ (p - wilsonLB p N1) ^ 2
        - zval * zval * wilsonLB p N1 * (1 - wilsonLB p N1) / N2 := by
      rw [hroot]
      have hdiv : zval * zval * wilsonLB p N1 * (1 - wilsonLB p N1) / N2
          ≤ zval * zval * wilsonLB p N1 * (1 - wilsonLB p N1) / N1 :=
        div_le_div_of_nonneg_left hq hN1 hN12
      linarith
    have hU2 := p_le_wilsonUB p N2 hN2 hpos.le h1
    by_contra hcon
    push_neg at hcon
    have hD := wD_pos N2 hN2
    have hL1U2 : wilsonLB p N1 - wilsonUB p N2 < 0 := by linarith
    have hprodneg : (wilsonLB p N1 - wilsonLB p N2) * (wilsonLB p N1 - wilsonUB p N2) < 0 :=
      mul_neg_of_pos_of_neg (by linarith) hL1U2
    have hfin : (1 + zval * zval / N2)
        * ((wilsonLB p N1 - wilsonLB p N2) * (wilsonLB p N1 - wilsonUB p N2)) < 0 :=
      mul_neg_of_pos_of_neg hD hprodneg
    linarith [hQ2, hge, hfin]

end Rank

section ClaimC7

open Rank

/-- C7: the Wilson score is monotone in the proportion of upvotes at a
fixed total and monotone in the total at a fixed proportion; in
particular `WilsonScore 8 2 > WilsonScore 5 5` and
`WilsonScore 10 0 > WilsonScore 1 0`. -/
theorem wilsonScore_monotone :
    (∀ u1 d1 u2 d2 : ℤ, 0 ≤ u1 → 0 ≤ d1 → 0 ≤ u2 → 0 ≤ d2 →
      u1 + d1 = u2 + d2 → 0 < u1 + d1 → u1 ≤ u2 →
      WilsonScore u1 d1 ≤ WilsonScore u2 d2)
    ∧ (∀ u1 d1 u2 d2 : ℤ, 0 ≤ u1 → 0 ≤ d1 → 0 ≤ u2 → 0 ≤ d2 →
      0 < u1 + d1 → u1 + d1 ≤ u2 + d2 → u1 * (u2 + d2) = u2 * (u1 + d1) →
      WilsonScore u1 d1 ≤ WilsonScore u2 d2)
    ∧ WilsonScore 5 5 < WilsonScore 8 2
    ∧ WilsonScore 1 0 < WilsonScore 10 0 := by
  have castN : ∀ u d : ℤ, 0 < u + d → (0 : ℝ) < (u : ℝ) + (d : ℝ) := by
    intro u d h
    exact_mod_cast h
  refine ⟨?_, ?_, ?_, ?_⟩
  · intro u1 d1 u2 d2 hu1 hd1 hu2 hd2 heq hpos hle
    have hN1 := castN u1 d1 hpos
    have hN2 := castN u2 d2 (heq ▸ hpos)
    have hNeq : (u1 : ℝ) + (d1 : ℝ) = (u2 : ℝ) + (d2 : ℝ) := by exact_mod_cast heq
    rw [wilsonScore_eq u1 d1 (by omega), wilsonScore_eq u2 d2 (by omega), ← hNeq]
    apply wilsonLB_mono_p _ _ _ hN1
    · exact div_nonneg (by exact_mod_cast hu1) hN1.le
    · exact (div_le_div_iff_of_pos_right hN1).mpr (by exact_mod_cast hle)
    · rw [div_le_one hN1, hNeq]
      have h1 : (0 : ℝ) ≤ (d2 : ℝ) := by exact_mod_cast hd2
      linarith
  · intro u1 d1 u2 d2 hu1 hd1 hu2 hd2 hpos hle hratio
    have hpos2 : 0 < u2 + d2 := by omega
    have hN1 := castN u1 d1 hpos
    have hN2 := castN u2 d2 hpos2
    have hNle : (u1 : ℝ) + (d1 : ℝ) ≤ (u2 : ℝ) + (d2 : ℝ) := by exact_mod_cast hle
    have hpeq : (u1 : ℝ) / ((u1 : ℝ) + (d1 : ℝ)) = (u2 : ℝ) / ((u2 : ℝ) + (d2 : ℝ)) := by
      rw [div_eq_div_iff (ne_of_gt hN1) (ne_of_gt hN2)]
      exact_mod_cast hratio
    rw [wilsonScore_eq u1 d1 (by omega), wilsonScore_eq u2 d2 (by omega), hpeq]
    apply wilsonLB_mono_N _ _ _ hN1 hNle
    · exact div_nonneg (by exact_mod_cast hu2) hN2.le
    · rw [div_le_one hN2]
      have h1 : (0 : ℝ) ≤ (d2 : ℝ) := by exact_mod_cast hd2
      linarith
  · rw [wilsonScore_eq 5 5 (by decide), wilsonScore_eq 8 2 (by decide)]
    have e1 : ((5 : ℤ) : ℝ) / (((5 : ℤ) : ℝ) + ((5 : ℤ) : ℝ)) = 5 / 10 := by norm_num
    have e2 : ((5 : ℤ) : ℝ) + ((5 : ℤ) : ℝ) = 10 := by norm_num
    have e3 : ((8 : ℤ) : ℝ) / (((8 : ℤ) : ℝ) + ((2 : ℤ) : ℝ)) = 8 / 10 := by norm_num
    have e4 : ((8 : ℤ) : ℝ) + ((2 : ℤ) : ℝ) = 10 := by norm_num
    rw [e1, e2, e3, e4]
    unfold wilsonLB
    have hD := wD_pos 10 (by norm_num)
    rw [div_lt_div_iff_of_pos_right hD]
    have hg : wg (8 / 10) 10 ≤ wg (5 / 10) 10 := by
      unfold wg
      norm_num [zval]
    have hs : Real.sqrt (wg (8 / 10) 10) ≤ Real.sqrt (wg (5 / 10) 10) :=
      Real.sqrt_le_sqrt hg
    have hzs : zval * Real.sqrt (wg (8 / 10) 10) ≤ zval * Real.sqrt (wg (5 / 10) 10) :=
      mul_le_mul_of_nonneg_left hs zval_pos.le
    have h58 : (5 : ℝ) / 10 < 8 / 10 := by norm_num
    linarith
  · rw [wilsonScore_eq 1 0 (by decide), wilsonScore_eq 10 0 (by decide)]
    have e1 : ((1 : ℤ) : ℝ) / (((1 : ℤ) : ℝ) + ((0 : ℤ) : ℝ)) = 1 := by norm_num
    have e2 : ((1 : ℤ) : ℝ) + ((0 : ℤ) : ℝ) = 1 := by norm_num
    have e3 : ((10 : ℤ) : ℝ) / (((10 : ℤ) : ℝ) + ((0 : ℤ) : ℝ)) = 1 := by norm_num
    have e4 : ((10 : ℤ) : ℝ) + ((0 : ℤ) : ℝ) = 10 := by norm_num
    rw [e1, e2, e3, e4]
    rw [wilsonLB_one 1 (by norm_num), wilsonLB_one 10 (by norm_num)]
    have h1 : (0 : ℝ) < 1 + zval * zval / 10 := wD_pos 10 (by norm_num)
    have h2 : 1 + zval * zval / 10 < 1 + zval * zval / 1 := by
      norm_num [zval]
    exact one_div_lt_one_div_of_lt h1 h2

end ClaimC7

section ClaimC7Witness

open Rank

/-- Witness for C7: both monotonicity statements applied at concrete
vote counts. -/
theorem wilsonScore_monotone_witness :
    ((0 : ℤ) ≤ 5 ∧ (5 : ℤ) + 5 = 8 + 2 ∧ (0 : ℤ) < 5 + 5 ∧ (5 : ℤ) ≤ 8 ∧
      WilsonScore 5 5 ≤ WilsonScore 8 2)
    ∧ ((0 : ℤ) < 1 + 0 ∧ (1 : ℤ) + 0 ≤ 10 + 0 ∧ (1 : ℤ) * (10 + 0) = 10 * (1 + 0) ∧
      WilsonScore 1 0 ≤ WilsonScore 10 0) :=
  ⟨⟨by decide, by decide, by decide, by decide,
      wilsonScore_monotone.1 5 5 8 2 (by decide) (by decide) (by decide) (by decide)
        (by decide) (by decide) (by decide)⟩,
    ⟨by decide, by decide, by decide,
      wilsonScore_monotone.2.1 1 0 10 0 (by decide) (by decide) (by decide) (by decide)
        (by decide) (by decide) (by decide)⟩⟩

end ClaimC7Witness

namespace GoSort

/-- Bounds-checked swap, the `Swap` closure of `sort.Slice` (indices are
always in range in the runs performed by the algorithm). -/
def aswap {α : Type} (arr : Array α) (i j : ℕ) : Array α :=
  if h : i < arr.size ∧ j < arr.size then arr.swap ⟨i, h.1⟩ ⟨j, h.2⟩ else arr

/-- Read used by the `Less` closure of `sort.Slice` (indices are always
in range in the runs performed by the algorithm). -/
def aget {α : Type} [Inhabited α] (arr : Array α) (i : ℕ) : α :=
  arr.getD i default

variable {α : Type} [Inhabited α] (less : α → α → Bool)

/-- Inner loop of `insertionSort_func`: sift `data[j]` to the left
(structural recursion on the index, which counts down). -/
def insInner (arr : Array α) (a : ℕ) : ℕ → Array α
  | 0 => arr
  | j + 1 =>
    if a < j + 1 ∧ less (aget arr (j + 1)) (aget arr j) then
      insInner (aswap arr (j + 1) j) a j
    else arr

/-- Outer loop of `insertionSort_func`; the fuel bounds `b - i`. -/
def insLoop (a b : ℕ) : Array α → ℕ → ℕ → Array α
  | arr, _, 0 => arr
  | arr, i, fuel + 1 =>
    if i < b then insLoop a b (insInner less arr a i) (i + 1) fuel else arr

/-- Model of `insertionSort_func(data, a, b)`. -/
def insertionSort (arr : Array α) (a b : ℕ) : Array α :=
  insLoop less a b arr (a + 1) b

/-- Model of `siftDown_func(data, lo, hi, first)` (the loop is bounded by
`hi`, which the fuel argument makes explicit). -/
def siftDownLoop (arr : Array α) (hi first root : ℕ) : ℕ → Array α
  | 0 => arr
  | fuel + 1 =>
    let child := 2 * root + 1
    if child ≥ hi then arr
    else
      let child :=
        if child + 1 < hi ∧ less (aget arr (first + child)) (aget arr (first + child + 1))
        then child + 1 else child
      if ¬ less (aget arr (first + root)) (aget arr (first + child)) then arr
      else siftDownLoop (aswap arr (first + root) (first + child)) hi first child fuel

/-- Heap construction phase of `heapSort_func`; the argument counts the
remaining iterations, starting at `(hi-1)/2 + 1` (the loop runs for
`i = (hi-1)/2` down to `0`). -/
def buildHeap (first hi : ℕ) : Array α → ℕ → Array α
  | arr, 0 => arr
  | arr, k + 1 => buildHeap first hi (siftDownLoop less arr hi first k hi) k

/-- Pop phase of `heapSort_func`; the argument counts the remaining
iterations (the loop runs for `i = hi-1` down to `0`). -/
def popHeap (first : ℕ) : Array α → ℕ → Array α
  | arr, 0 => arr
  | arr, k + 1 =>
    popHeap first (siftDownLoop less (aswap arr first (first + k)) k first 0 (k + 1)) k

/-- Model of `heapSort_func(data, a, b)`. -/
def heapSort (arr : Array α) (a b : ℕ) : Array α :=
  let first := a
  let hi := b - a
  popHeap less first (buildHeap less first hi arr ((hi - 1) / 2 + 1)) hi

/-- Model of `reverseRange_func(data, a, b)` (fuel bounds `j - i`). -/
def reverseRangeLoop : Array α → ℕ → ℕ → ℕ → Array α
  | arr, _, _, 0 => arr
  | arr, i, j, fuel + 1 =>
    if i < j then reverseRangeLoop (aswap arr i j) (i + 1) (j - 1) fuel else arr

/-- Model of `reverseRange_func(data, a, b)`. -/
def reverseRange (arr : Array α) (a b : ℕ) : Array α :=
  reverseRangeLoop arr a (b - 1) b

/-- Model of the `xorshift` generator of the Go sort package (64-bit
state, shifts 13, 7, 17). -/
def xorshiftNext (r : ℕ) : ℕ :=
  let r := (r ^^^ (r <<< 13)) % (2 ^ 64)
  let r := (r ^^^ (r >>> 7)) % (2 ^ 64)
  let r := (r ^^^ (r <<< 17)) % (2 ^ 64)
  r

/-- Model of `bits.Len` (number of binary digits), with enough fuel for
any 64-bit value. -/
def bitsLenAux : ℕ → ℕ → ℕ
  | _, 0 => 0
  | n, fuel + 1 => if n = 0 then 0 else bitsLenAux (n / 2) fuel + 1

/-- Model of `bits.Len(n)` for the 64-bit integers of Go. -/
def bitsLen (n : ℕ) : ℕ := bitsLenAux n 64

/-- Model of `nextPowerOfTwo(length) = 1 << bits.Len(length)`. -/
def nextPowerOfTwo (length : ℕ) : ℕ := 1 <<< bitsLen length

/-- One random swap of `breakPatterns_func`. -/
def breakOne (arr : Array α) (a length modulus idx i rnd : ℕ) : Array α :=
  let other := rnd % modulus
  let other := if other ≥ length then other - length else other
  aswap arr (idx - 1 + i) (a + other)

/-- Model of `breakPatterns_func(data, a, b)`: three pseudo-random swaps
around the middle, seeded with the length. -/
def breakPatterns (arr : Array α) (a b : ℕ) : Array α :=
  let length := b - a
  if length ≥ 8 then
    let r0 := length % (2 ^ 64)
    let modulus := nextPowerOfTwo length
    let idx := a + length / 4 * 2 - 1
    let r1 := xorshiftNext r0
    let arr := breakOne arr a length modulus idx 0 r1
    let r2 := xorshiftNext r1
    let arr := breakOne arr a length modulus idx 1 r2
    let r3 := xorshiftNext r2
    let arr := breakOne arr a length modulus idx 2 r3
    arr
  else arr

/-- Model of `order2_func`: indices in comparator order plus the swap
count. -/
def order2 (arr : Array α) (a b swaps : ℕ) : ℕ × ℕ × ℕ :=
  if less (aget arr b) (aget arr a) then (b, a, swaps + 1) else (a, b, swaps)

/-- Model of `median_func`: index of the median of three. -/
def median (arr : Array α) (a b c swaps : ℕ) : ℕ × ℕ :=
  match order2 less arr a b swaps with
  | (a, b, s1) =>
    match order2 less arr b c s1 with
    | (b, _, s2) =>
      match order2 less arr a b s2 with
      | (_, b, s3) => (b, s3)

/-- Model of `medianAdjacent_func`. -/
def medianAdjacent (arr : Array α) (i swaps : ℕ) : ℕ × ℕ :=
  median less arr (i - 1) i (i + 1) swaps

/-- Sortedness hints of the Go sort package. -/
inductive Hint where
  | unknown
  | increasing
  | decreasing
deriving DecidableEq, Repr

/-- Model of `choosePivot_func(data, a, b)`. -/
def choosePivot (arr : Array α) (a b : ℕ) : ℕ × Hint :=
  let l := b - a
  let swaps := 0
  let i := a + l / 4 * 1
  let j := a + l / 4 * 2
  let k := a + l / 4 * 3
  if l ≥ 8 then
    let (i, j, k, swaps) :=
      if l ≥ 50 then
        match medianAdjacent less arr i swaps with
        | (i, s1) =>
          match medianAdjacent less arr j s1 with
          | (j, s2) =>
            match medianAdjacent less arr k s2 with
            | (k, s3) => (i, j, k, s3)
      else (i, j, k, swaps)
    match median less arr i j k swaps with
    | (j, swaps) =>
      if swaps = 0 then (j, Hint.increasing)
      else if swaps = 12 then (j, Hint.decreasing)
      else (j, Hint.unknown)
  else
    (j, Hint.increasing)

end GoSort

namespace GoSort

variable {α : Type} [Inhabited α] (less : α → α → Bool)

/-- Scan of `partialInsertionSort_func`: first adjacent out-of-order
position at or after `i` (fuel bounds `b - i`). -/
def pisAdvance (arr : Array α) (b : ℕ) : ℕ → ℕ → ℕ
  | i, 0 => i
  | i, fuel + 1 =>
    if i < b ∧ ¬ less (aget arr i) (aget arr (i - 1)) then pisAdvance arr b (i + 1) fuel
    else i

/-- Left shift of `partialInsertionSort_func` (loop bound `j >= 1`,
structural recursion on the index counting down). -/
def pisShiftLeft (arr : Array α) : ℕ → Array α
  | 0 => arr
  | j + 1 =>
    if less (aget arr (j + 1)) (aget arr j) then
      pisShiftLeft (aswap arr (j + 1) j) j
    else arr

/-- Right shift of `partialInsertionSort_func` (fuel bounds `b - j`). -/
def pisShiftRight (arr : Array α) (b : ℕ) : ℕ → ℕ → Array α
  | _, 0 => arr
  | j, fuel + 1 =>
    if j < b ∧ less (aget arr j) (aget arr (j - 1)) then
      pisShiftRight (aswap arr j (j - 1)) b (j + 1) fuel
    else arr

/-- Outer loop of `partialInsertionSort_func` (at most five steps). -/
def pisLoop (a b : ℕ) : Array α → ℕ → ℕ → Array α × Bool
  | arr, _, 0 => (arr, false)
  | arr, i, steps + 1 =>
    let i := pisAdvance less arr b i b
    if i = b then (arr, true)
    else if b - a < 50 then (arr, false)
    else
      let arr := aswap arr i (i - 1)
      let arr := if i - a ≥ 2 then pisShiftLeft less arr (i - 1) else arr
      let arr := if b - i ≥ 2 then pisShiftRight less arr b (i + 1) b else arr
      pisLoop a b arr i steps

/-- Model of `partialInsertionSort_func(data, a, b)`. -/
def partInsertionSort (arr : Array α) (a b : ℕ) : Array α × Bool :=
  pisLoop less a b arr (a + 1) 5

/-- Advance of the left cursor in `partition_func` (fuel bounds
`j + 1 - i`). -/
def partAdvanceI (arr : Array α) (a j : ℕ) : ℕ → ℕ → ℕ
  | i, 0 => i
  | i, fuel + 1 =>
    if i ≤ j ∧ less (aget arr i) (aget arr a) then partAdvanceI arr a j (i + 1) fuel
    else i

/-- Advance of the right cursor in `partition_func`; the fuel argument
bounds the loop, which in the runs performed never descends below
`i - 1 ≥ 0`. -/
def partAdvanceJ (arr : Array α) (a i : ℕ) : ℕ → ℕ → ℕ
  | _, 0 => 0
  | j, fuel + 1 =>
    if i ≤ j ∧ ¬ less (aget arr j) (aget arr a) then partAdvanceJ arr a i (j - 1) fuel
    else j

/-- Main loop of `partition_func`; returns the array and the final
cursors. -/
def partLoop (a : ℕ) : Array α → ℕ → ℕ → ℕ → Array α × ℕ × ℕ
  | arr, i, j, 0 => (arr, i, j)
  | arr, i, j, fuel + 1 =>
    let i := partAdvanceI less arr a j i (j + 1)
    let j := partAdvanceJ less arr a i j (j + 1)
    if i > j then (arr, i, j)
    else partLoop a (aswap arr i j) (i + 1) (j - 1) fuel

/-- Model of `partition_func(data, a, b, pivot)`: returns the array, the
new pivot position, and whether the range was already partitioned. -/
def partition (arr : Array α) (a b pivot : ℕ) : Array α × ℕ × Bool :=
  let arr := aswap arr a pivot
  let i := a + 1
  let j := b - 1
  let i2 := partAdvanceI less arr a j i (j + 1)
  let j2 := partAdvanceJ less arr a i2 j (j + 1)
  if i2 > j2 then (aswap arr j2 a, j2, true)
  else
    match partLoop less a (aswap arr i2 j2) (i2 + 1) (j2 - 1) b with
    | (arr, _, j3) => (aswap arr j3 a, j3, false)

/-- Advance of the left cursor in `partitionEqual_func` (fuel bounds
`j + 1 - i`). -/
def peqAdvanceI (arr : Array α) (a j : ℕ) : ℕ → ℕ → ℕ
  | i, 0 => i
  | i, fuel + 1 =>
    if i ≤ j ∧ ¬ less (aget arr a) (aget arr i) then peqAdvanceI arr a j (i + 1) fuel
    else i

/-- Advance of the right cursor in `partitionEqual_func`. -/
def peqAdvanceJ (arr : Array α) (a i : ℕ) : ℕ → ℕ → ℕ
  | _, 0 => 0
  | j, fuel + 1 =>
    if i ≤ j ∧ less (aget arr a) (aget arr j) then peqAdvanceJ arr a i (j - 1) fuel
    else j

/-- Main loop of `partitionEqual_func`; returns the array and the left
cursor. -/
def peqLoop (a : ℕ) : Array α → ℕ → ℕ → ℕ → Array α × ℕ
  | arr, i, j, 0 => (arr, i)
  | arr, i, j, fuel + 1 =>
    let i := peqAdvanceI less arr a j i (j + 1)
    let j := peqAdvanceJ less arr a i j (j + 1)
    if i > j then (arr, i)
    else peqLoop a (aswap arr i j) (i + 1) (j - 1) fuel

/-- Model of `partitionEqual_func(data, a, b, pivot)`: returns the array
and the first index of the strictly-greater suffix. -/
def partitionEqual (arr : Array α) (a b pivot : ℕ) : Array α × ℕ :=
  let arr := aswap arr a pivot
  peqLoop less a arr (a + 1) (b - 1) b

/-- Model of `pdqsort_func(data, a, b, limit)`. The two loop flags are
the local variables `wasBalanced` and `wasPartitioned`; iterations of the
non-recursive `for` loop become tail calls, so the fuel argument bounds
the loop and the recursion together and is never exhausted when it
exceeds the length of the range plus the limit. -/
def pdqsort : Array α → ℕ → ℕ → ℕ → Bool → Bool → ℕ → Array α
  | arr, _, _, _, _, _, 0 => arr
  | arr, a, b, limit, wasBalanced, wasPartitioned, fuel + 1 =>
    let length := b - a
    if length ≤ 12 then insertionSort less arr a b
    else if limit = 0 then heapSort less arr a b
    else
      let arr := if ¬ wasBalanced then breakPatterns arr a b else arr
      let limit := if ¬ wasBalanced then limit - 1 else limit
      match choosePivot less arr a b with
      | (pivot0, hint0) =>
        let arr := if hint0 = Hint.decreasing then reverseRange arr a b else arr
        let pivot := if hint0 = Hint.decreasing then (b - 1) - (pivot0 - a) else pivot0
        let hint := if hint0 = Hint.decreasing then Hint.increasing else hint0
        let pis :=
          if wasBalanced ∧ wasPartitioned ∧ hint = Hint.increasing then
            partInsertionSort less arr a b
          else (arr, false)
        if pis.2 then pis.1
        else
          let arr := pis.1
          if 0 < a ∧ ¬ less (aget arr (a - 1)) (aget arr pivot) then
            let pe := partitionEqual less arr a b pivot
            pdqsort pe.1 pe.2 b limit wasBalanced wasPartitioned fuel
          else
            match partition less arr a b pivot with
            | (arr, mid, alreadyPartitioned) =>
              let leftLen := mid - a
              let rightLen := b - mid
              let balanceThreshold := length / 8
              let newBalanced := decide (min leftLen rightLen ≥ balanceThreshold)
              if leftLen < rightLen then
                pdqsort (pdqsort arr a mid limit true true fuel) (mid + 1) b limit
                  newBalanced alreadyPartitioned fuel
              else
                pdqsort (pdqsort arr (mid + 1) b limit true true fuel) a mid limit
                  newBalanced alreadyPartitioned fuel

/-- Model of `sort.Slice`: `pdqsort(data, 0, n, bits.Len(n))`. -/
def goSortSlice (arr : Array α) : Array α :=
  pdqsort less arr 0 arr.size (bitsLen arr.size) true true (arr.size + 64)

end GoSort

namespace Rank

/-- Zero value of `StoryInput`. -/
instance : Inhabited StoryInput :=
  ⟨{ ID := 0, CreatedAt := 0, Tags := [], StoryScore := 0, Comments := [] }⟩

/-- Zero value of `ScoredStory`. -/
noncomputable instance : Inhabited ScoredStory :=
  ⟨{ ID := 0, CreatedAt := 0, Tags := [], StoryScore := 0, Comments := []
     Hotness := 0, Base := 0, Order := 0, Sign := 0, Age := 0
     CommentPoints := 0, Cpoints := 0 }⟩

open Classical in
/-- Model of `rank.RankStories`: score every story, then sort with
`sort.Slice` (the unstable pattern-defeating quicksort) ascending by
hotness. -/
noncomputable def RankStories (stories : List StoryInput) (windowSeconds : ℝ) :
    List ScoredStory :=
  let scored := stories.map (fun s => ComputeHotness s windowSeconds)
  (GoSort.goSortSlice (fun x y => decide (x.Hotness < y.Hotness)) scored.toArray).toList

end Rank

namespace Rank

/-- Comparator of `RankStories` on (hotness key, original position)
pairs; the integer key stands for the hotness value, lower is hotter. -/
def c1LessKey (x y : ℤ × ℕ) : Bool := decide (x.1 < y.1)

/-- Hotness keys of the thirteen stories of the C1 failing input, tagged
with their input positions: twelve stories share one hotness and the
story at position `6` has strictly lower hotness. -/
def c1KeyArray : Array (ℤ × ℕ) :=
  #[(0, 0), (0, 1), (0, 2), (0, 3), (0, 4), (0, 5), (-1, 6),
    (0, 7), (0, 8), (0, 9), (0, 10), (0, 11), (0, 12)]

/-- Story of the C1 failing input: score zero, no tags, no comments,
with the given creation time and id. -/
def c1Story (t id : ℤ) : StoryInput :=
  { ID := id, CreatedAt := t, Tags := [], StoryScore := 0, Comments := [] }

end Rank

section ClaimC1

open Rank

/-- C1: `sort.Slice` as called by `RankStories` is not stable. On
thirteen stories whose hotness keys are equal except for a strictly
hotter story at position `6` (realised by thirteen score-zero stories
created at the same instant except for a newer one, whose hotness values
compare exactly like the integer keys), the embedded `sort.Slice` returns
the twelve equal-hotness stories in the order `3, 2, 0, 4, 5, 1, 7, ...`
instead of the claimed original order `0, 1, 2, 3, 4, 5, 7, ...`. -/
theorem rankStories_sort_unstable_cex :
    ((GoSort.goSortSlice c1LessKey c1KeyArray).toList.map Prod.snd
        = [6, 3, 2, 0, 4, 5, 1, 7, 8, 9, 10, 11, 12]
      ∧ ([6, 3, 2, 0, 4, 5, 1, 7, 8, 9, 10, 11, 12] : List ℕ)
          ≠ [6, 0, 1, 2, 3, 4, 5, 7, 8, 9, 10, 11, 12])
    ∧ (∀ id1 id2 : ℤ, (ComputeHotness (c1Story 79200 id1) 79200).Hotness
        = (ComputeHotness (c1Story 79200 id2) 79200).Hotness)
    ∧ (∀ id1 id2 : ℤ, (ComputeHotness (c1Story 158400 id1) 79200).Hotness
        < (ComputeHotness (c1Story 79200 id2) 79200).Hotness) := by
  refine ⟨⟨by decide, by decide⟩, ?_, ?_⟩
  · intro id1 id2
    rfl
  · intro id1 id2
    have h1 : ∀ id t, (ComputeHotness (c1Story t id) 79200).Hotness
        = -1 * (0 + ComputeOrder 0 (ComputeCommentPoints 0 0 []).1 * ((0 : ℤ) : ℝ)
            + (t : ℝ) / 79200) := fun id t => rfl
    rw [h1, h1]
    push_cast
    norm_num


end ClaimC1

namespace App

/-- Placement parent of a comment id: the declared parent when it
resolves in the node map, nothing when the row is root-placed or the id
is unknown. -/
def ancOf (nm : ℤ → Option CNode) (rows : List ListCommentsByStoryRow) (id : ℤ) :
    Option ℤ :=
  match rows.find? (fun r => r.ID == id) with
  | none => none
  | some r =>
    match r.ParentID with
    | none => none
    | some pid => if (nm pid).isSome then some pid else none

/-- Iterated placement parent. -/
def ancIter (anc : ℤ → Option ℤ) : ℕ → ℤ → Option ℤ
  | 0, id => some id
  | k + 1, id =>
    match anc id with
    | none => none
    | some p => ancIter anc k p

/-- The id `t` lies on the ancestor chain of `x`. -/
def reaches (anc : ℤ → Option ℤ) (x t : ℤ) : Prop :=
  ∃ k, ancIter anc k x = some t

/-- Splitting an iterated ancestor walk. -/
theorem ancIter_add (anc : ℤ → Option ℤ) (k m : ℕ) (x : ℤ) :
    ancIter anc (k + m) x
      = match ancIter anc k x with
        | none => none
        | some y => ancIter anc m y := by
  induction k generalizing x with
  | zero => simp [ancIter]
  | succ k ih =>
    have h1 : k + 1 + m = (k + m) + 1 := by omega
    rw [h1]
    have hL : ancIter anc ((k + m) + 1) x
        = match anc x with
          | none => none
          | some p => ancIter anc (k + m) p := rfl
    have hR : ancIter anc (k + 1) x
        = match anc x with
          | none => none
          | some p => ancIter anc k p := rfl
    rw [hL, hR]
    rcases h : anc x with _ | p
    · rfl
    · exact ih p

/-- A single step of the walk is the placement parent. -/
theorem ancIter_one (anc : ℤ → Option ℤ) (x : ℤ) : ancIter anc 1 x = anc x := by
  show (match anc x with
      | none => none
      | some p => ancIter anc 0 p) = anc x
  rcases h : anc x with _ | p <;> rfl

/-- The chain of a reachable target extends by one placement step. -/
theorem reaches_step (anc : ℤ → Option ℤ) (x y t : ℤ) (h1 : reaches anc x y)
    (h2 : anc y = some t) : reaches anc x t := by
  obtain ⟨k, hk⟩ := h1
  refine ⟨k + 1, ?_⟩
  rw [ancIter_add anc k 1 x, hk]
  show ancIter anc 1 y = some t
  rw [ancIter_one, h2]

/-- Reflexivity of reachability. -/
theorem reaches_refl (anc : ℤ → Option ℤ) (x : ℤ) : reaches anc x x := ⟨0, rfl⟩

/-- Decomposition of a nontrivial walk at its last step. -/
theorem ancIter_succ_last (anc : ℤ → Option ℤ) (k : ℕ) (x t : ℤ)
    (h : ancIter anc (k + 1) x = some t) :
    ∃ y, ancIter anc k x = some y ∧ anc y = some t := by
  rw [ancIter_add anc k 1 x] at h
  rcases h2 : ancIter anc k x with _ | y <;> rw [h2] at h
  · exact absurd h (by simp)
  · have h3 : ancIter anc 1 y = some t := h
    rw [ancIter_one] at h3
    exact ⟨y, rfl, h3⟩

end App

namespace App

/-- Each row of a duplicate-free row list is found by its own id. -/
theorem find_row_self (rows : List ListCommentsByStoryRow)
    (hnodup : (rows.map (fun r => r.ID)).Nodup) (r : ListCommentsByStoryRow)
    (hr : r ∈ rows) : rows.find? (fun r2 => r2.ID == r.ID) = some r := by
  rcases hfind : rows.find? (fun r2 => r2.ID == r.ID) with _ | r2
  · rw [List.find?_eq_none] at hfind
    exact absurd (by simp) (hfind r hr)
  · have h1 : r2.ID = r.ID := by simpa using List.find?_some hfind
    have h2 := List.mem_of_find?_eq_some hfind
    have h3 : r2 = r := List.inj_on_of_nodup_map hnodup h2 hr h1
    rw [hfind, h3]

/-- No placement parent outside the id set. -/
theorem ancOf_eq_none_of_not_mem (nm : ℤ → Option CNode)
    (rows : List ListCommentsByStoryRow) (x : ℤ)
    (hx : x ∉ rows.map (fun r => r.ID)) : ancOf nm rows x = none := by
  unfold ancOf
  rcases hfind : rows.find? (fun r => r.ID == x) with _ | r <;> rw [hfind]
  · exfalso
    have h1 : r.ID = x := by simpa using List.find?_some hfind
    exact hx (List.mem_map.mpr ⟨r, List.mem_of_find?_eq_some hfind, h1⟩)

/-- A placement step names a row for the child and resolves the parent. -/
theorem ancOf_eq_some (nm : ℤ → Option CNode) (rows : List ListCommentsByStoryRow)
    (id p : ℤ) (h : ancOf nm rows id = some p) :
    ∃ r ∈ rows, r.ID = id ∧ r.ParentID = some p ∧ (nm p).isSome = true := by
  unfold ancOf at h
  rcases hfind : rows.find? (fun r => r.ID == id) with _ | r <;> rw [hfind] at h
  · exact absurd h (by simp)
  · replace h : (match r.ParentID with
      | none => none
      | some pid => if (nm pid).isSome then some pid else none) = some p := h
    rcases hpar : r.ParentID with _ | pid <;> rw [hpar] at h
    · exact absurd h (by simp)
    · replace h : (if (nm pid).isSome then some pid else none) = some p := h
      rcases hsome : (nm pid).isSome with _ | _ <;> rw [hsome] at h
      · exact absurd h (by simp)
      · have h2 : pid = p := by simpa using h
        subst h2
        exact ⟨r, List.mem_of_find?_eq_some hfind,
          by simpa using List.find?_some hfind, hpar, hsome⟩

end App

namespace App

/-- A placement step strictly increases any rank witnessing acyclicity. -/
theorem anc_rank_lt (render : String → String) (now : ℤ) (opts : BuildTreeOpts)
    (rows : List ListCommentsByStoryRow) (rank : ℤ → ℕ)
    (hrank : ∀ r ∈ rows, ∀ pid, r.ParentID = some pid →
      pid ∈ rows.map (fun r => r.ID) → rank r.ID < rank pid)
    (id p : ℤ) (h : ancOf (nodeMapOf render now opts rows) rows id = some p) :
    rank id < rank p := by
  obtain ⟨r, hr, hid, hpar, hsome⟩ := ancOf_eq_some _ rows id p h
  have hmem : p ∈ rows.map (fun r => r.ID) :=
    (nodeMapOf_isSome_iff render now opts rows p).mp hsome
  have := hrank r hr p hpar hmem
  rw [hid] at this
  exact this

/-- Rank is monotone along the ancestor walk. -/
theorem ancIter_rank_le (render : String → String) (now : ℤ) (opts : BuildTreeOpts)
    (rows : List ListCommentsByStoryRow) (rank : ℤ → ℕ)
    (hrank : ∀ r ∈ rows, ∀ pid, r.ParentID = some pid →
      pid ∈ rows.map (fun r => r.ID) → rank r.ID < rank pid)
    (k : ℕ) (x y : ℤ)
    (h : ancIter (ancOf (nodeMapOf render now opts rows) rows) k x = some y) :
    rank x ≤ rank y := by
  induction k generalizing x with
  | zero =>
    have h2 : x = y := by simpa [ancIter] using h
    rw [h2]
  | succ k ih =>
    replace h : (match ancOf (nodeMapOf render now opts rows) rows x with
      | none => none
      | some p => ancIter (ancOf (nodeMapOf render now opts rows) rows) k p) = some y := h
    rcases hstep : ancOf (nodeMapOf render now opts rows) rows x with _ | p <;>
      rw [hstep] at h
    · exact absurd h (by simp)
    · have h1 := anc_rank_lt render now opts rows rank hrank x p hstep
      exact le_trans h1.le (ih p h)

/-- Reachability increases rank. -/
theorem reaches_rank_le (render : String → String) (now : ℤ) (opts : BuildTreeOpts)
    (rows : List ListCommentsByStoryRow) (rank : ℤ → ℕ)
    (hrank : ∀ r ∈ rows, ∀ pid, r.ParentID = some pid →
      pid ∈ rows.map (fun r => r.ID) → rank r.ID < rank pid)
    (x y : ℤ) (h : reaches (ancOf (nodeMapOf render now opts rows) rows) x y) :
    rank x ≤ rank y := by
  obtain ⟨k, hk⟩ := h
  exact ancIter_rank_le render now opts rows rank hrank k x y hk

/-- Outside the id set reachability is trivial. -/
theorem reaches_of_not_mem (nm : ℤ → Option CNode) (rows : List ListCommentsByStoryRow)
    (x t : ℤ) (hx : x ∉ rows.map (fun r => r.ID))
    (h : reaches (ancOf nm rows) x t) : x = t := by
  obtain ⟨k, hk⟩ := h
  match k with
  | 0 => simpa [ancIter] using hk
  | k + 1 =>
    replace hk : (match ancOf nm rows x with
      | none => none
      | some p => ancIter (ancOf nm rows) k p) = some t := hk
    rw [ancOf_eq_none_of_not_mem nm rows x hx] at hk
    exact absurd hk (by simp)

end App

namespace App

/-- The stored node of a present row carries the row id. -/
theorem nodeAt_ID (render : String → String) (now : ℤ) (opts : BuildTreeOpts)
    (rows : List ListCommentsByStoryRow) (r : ListCommentsByStoryRow) (hr : r ∈ rows) :
    (nodeAt (nodeMapOf render now opts rows) r).ID = r.ID := by
  have hsome : (nodeMapOf render now opts rows r.ID).isSome = true :=
    (nodeMapOf_isSome_iff render now opts rows r.ID).mpr (List.mem_map.mpr ⟨r, hr, rfl⟩)
  obtain ⟨nd, hnd⟩ := Option.isSome_iff_exists.mp hsome
  unfold nodeAt
  rw [hnd]
  exact nodeMapOf_ID render now opts rows r.ID nd hnd

/-- Ids of a child list of the linking pass. -/
theorem children_map_ID (render : String → String) (now : ℤ) (opts : BuildTreeOpts)
    (rows : List ListCommentsByStoryRow) (pid : ℤ) :
    ((linkPass (nodeMapOf render now opts rows) rows).2 pid).map (fun nd => nd.ID)
      = (rows.filter (linkChild (nodeMapOf render now opts rows) pid)).map
          (fun r => r.ID) := by
  unfold linkPass
  rw [linkFold_children]
  simp only [List.nil_append, List.map_map]
  exact List.map_congr_left fun r hr =>
    nodeAt_ID render now opts rows r (List.mem_of_mem_filter hr)

/-- Ids of the root list of the linking pass. -/
theorem roots_map_ID (render : String → String) (now : ℤ) (opts : BuildTreeOpts)
    (rows : List ListCommentsByStoryRow) :
    ((linkPass (nodeMapOf render now opts rows) rows).1).map (fun nd => nd.ID)
      = (rows.filter (fun r => !(linkAttaches (nodeMapOf render now opts rows) r))).map
          (fun r => r.ID) := by
  unfold linkPass
  rw [linkFold_roots]
  simp only [List.nil_append, List.map_map]
  exact List.map_congr_left fun r hr =>
    nodeAt_ID render now opts rows r (List.mem_of_mem_filter hr)

/-- Ids of a sorted sibling list, up to permutation. -/
theorem sortByWilson_map_ID_perm (l : List CNode) :
    ((sortByWilson l).map (fun nd => nd.ID)).Perm (l.map (fun nd => nd.ID)) :=
  (List.mergeSort_perm l sliceStableLE).map (fun nd => nd.ID)

/-- Node list of the subtree materialised below a node. -/
def subtreeList (cof : ℤ → List CNode) : ℕ → CNode → List CNode
  | 0, nd => [nd]
  | fuel + 1, nd => nd :: ((cof nd.ID).map (subtreeList cof fuel)).flatten

/-- Flattening the materialised tree gives the subtree list. -/
theorem flattenTree_toTree (cof : ℤ → List CNode) (fuel : ℕ) (nd : CNode) :
    flattenTree (toTree cof fuel nd) = subtreeList cof fuel nd := by
  induction fuel generalizing nd with
  | zero =>
    show flattenTree (.mk nd []) = [nd]
    rw [flattenTree]
    simp
  | succ fuel ih =>
    show flattenTree (.mk nd ((cof nd.ID).map (toTree cof fuel))) = _
    rw [flattenTree]
    show nd :: _ = nd :: ((cof nd.ID).map (subtreeList cof fuel)).flatten
    congr 1
    rw [List.attach_map_coe]
    rw [List.map_map]
    congr 1
    exact List.map_congr_left fun c _ => ih c

end App

namespace App

/-- Number of nodes of a list carrying a given id. -/
def cnt (l : List CNode) (x : ℤ) : ℕ := (l.map (fun nd => nd.ID)).count x

/-- Membership in a sorted child list agrees with the linking pass. -/
theorem mem_childrenOf_iff (render : String → String) (now : ℤ) (opts : BuildTreeOpts)
    (rows : List ListCommentsByStoryRow) (pid : ℤ) (c : CNode) :
    c ∈ (buildCommentTree render now rows opts).childrenOf pid
      ↔ c ∈ (linkPass (nodeMapOf render now opts rows) rows).2 pid := by
  show c ∈ (if 1 < ((linkPass (nodeMapOf render now opts rows) rows).2 pid).length
      then sortByWilson ((linkPass (nodeMapOf render now opts rows) rows).2 pid)
      else (linkPass (nodeMapOf render now opts rows) rows).2 pid) ↔ _
  split
  · exact List.mem_mergeSort
  · exact Iff.rfl

/-- Every member of a sorted child list comes from a row attached there. -/
theorem mem_childrenOf_row (render : String → String) (now : ℤ) (opts : BuildTreeOpts)
    (rows : List ListCommentsByStoryRow) (pid : ℤ) (c : CNode)
    (h : c ∈ (buildCommentTree render now rows opts).childrenOf pid) :
    ∃ r ∈ rows, linkChild (nodeMapOf render now opts rows) pid r = true ∧ c.ID = r.ID := by
  rw [mem_childrenOf_iff] at h
  unfold linkPass at h
  rw [linkFold_children] at h
  simp only [List.nil_append] at h
  obtain ⟨r, hr, hc⟩ := List.mem_map.mp h
  have hfil := List.mem_filter.mp hr
  exact ⟨r, hfil.1, hfil.2, by
    rw [← hc]
    exact nodeAt_ID render now opts rows r hfil.1⟩

/-- Every row attached below `pid` contributes a node to the sorted child
list of `pid`. -/
theorem row_mem_childrenOf (render : String → String) (now : ℤ) (opts : BuildTreeOpts)
    (rows : List ListCommentsByStoryRow) (pid : ℤ) (r : ListCommentsByStoryRow)
    (hr : r ∈ rows) (hchild : linkChild (nodeMapOf render now opts rows) pid r = true) :
    ∃ c ∈ (buildCommentTree render now rows opts).childrenOf pid, c.ID = r.ID := by
  refine ⟨nodeAt (nodeMapOf render now opts rows) r, ?_, nodeAt_ID render now opts rows r hr⟩
  rw [mem_childrenOf_iff]
  unfold linkPass
  rw [linkFold_children]
  simp only [List.nil_append]
  exact List.mem_map.mpr ⟨r, List.mem_filter.mpr ⟨hr, hchild⟩, rfl⟩

/-- Child lists of the output carry pairwise distinct ids when the rows
do. -/
theorem childrenOf_nodup (render : String → String) (now : ℤ) (opts : BuildTreeOpts)
    (rows : List ListCommentsByStoryRow)
    (hnodup : (rows.map (fun r => r.ID)).Nodup) (pid : ℤ) :
    (((buildCommentTree render now rows opts).childrenOf pid).map
      (fun nd => nd.ID)).Nodup := by
  have hfil : ((rows.filter (linkChild (nodeMapOf render now opts rows) pid)).map
      (fun r => r.ID)).Nodup := by
    have hsub : (rows.filter (linkChild (nodeMapOf render now opts rows) pid)).Sublist rows :=
      List.filter_sublist rows
    exact List.Nodup.sublist (hsub.map (fun r => r.ID)) hnodup
  have hperm : (((buildCommentTree render now rows opts).childrenOf pid).map
      (fun nd => nd.ID)).Perm
      ((rows.filter (linkChild (nodeMapOf render now opts rows) pid)).map
        (fun r => r.ID)) := by
    rw [← children_map_ID]
    show ((if 1 < ((linkPass (nodeMapOf render now opts rows) rows).2 pid).length
        then sortByWilson ((linkPass (nodeMapOf render now opts rows) rows).2 pid)
        else (linkPass (nodeMapOf render now opts rows) rows).2 pid).map
          (fun nd => nd.ID)).Perm _
    split
    · exact sortByWilson_map_ID_perm _
    · exact List.Perm.refl _
  exact hperm.nodup_iff.mpr hfil

end App

namespace App

/-- Sum of an indicator that holds nowhere on the list. -/
theorem sum_ite_zero (l : List CNode) (P : ℤ → Prop) [DecidablePred P]
    (h : ∀ c ∈ l, ¬ P c.ID) :
    (l.map (fun c => if P c.ID then 1 else 0)).sum = 0 := by
  apply List.sum_eq_zero
  intro n hn
  obtain ⟨c, hc, hval⟩ := List.mem_map.mp hn
  rw [if_neg (h c hc)] at hval
  exact hval.symm

/-- Sum of an indicator that holds for exactly one id of a
duplicate-free list. -/
theorem sum_ite_one (l : List CNode) (P : ℤ → Prop) [DecidablePred P]
    (hnd : (l.map (fun nd => nd.ID)).Nodup)
    (huniq : ∀ c1 ∈ l, ∀ c2 ∈ l, P c1.ID → P c2.ID → c1.ID = c2.ID)
    (hex : ∃ c ∈ l, P c.ID) :
    (l.map (fun c => if P c.ID then 1 else 0)).sum = 1 := by
  induction l with
  | nil => simp at hex
  | cons c cs ih =>
    simp only [List.map_cons, List.sum_cons]
    simp only [List.map_cons, List.nodup_cons] at hnd
    by_cases hc : P c.ID
    · rw [if_pos hc]
      have hzero : (cs.map (fun c2 => if P c2.ID then 1 else 0)).sum = 0 := by
        apply sum_ite_zero
        intro c2 hc2 hP2
        have := huniq c (by simp) c2 (by simp [hc2]) hc hP2
        exact hnd.1 (this ▸ List.mem_map.mpr ⟨c2, hc2, rfl⟩)
      omega
    · rw [if_neg hc]
      simp only [zero_add]
      apply ih hnd.2
      · intro c1 h1 c2 h2 hP1 hP2
        exact huniq c1 (by simp [h1]) c2 (by simp [h2]) hP1 hP2
      · obtain ⟨c2, hc2, hP2⟩ := hex
        rcases List.mem_cons.mp hc2 with h | h
        · exact absurd (h ▸ hP2) hc
        · exact ⟨c2, h, hP2⟩

end App

namespace App

/-- Counting an id in a consed node list. -/
theorem cnt_cons (nd : CNode) (l : List CNode) (x : ℤ) :
    cnt (nd :: l) x = cnt l x + (if x = nd.ID then 1 else 0) := by
  unfold cnt
  rw [List.map_cons, List.count_cons]
  by_cases h : x = nd.ID
  · simp [h]
  · have h2 : ¬ nd.ID = x := fun hh => h hh.symm
    rw [if_neg (by simpa using h2), if_neg h]

/-- Counting an id across a flattened list of node lists. -/
theorem cnt_flatten (ls : List (List CNode)) (x : ℤ) :
    cnt ls.flatten x = (ls.map (fun l => cnt l x)).sum := by
  unfold cnt
  rw [List.map_flatten, List.count_flatten, List.map_map]
  rfl

/-- Placement parent of a member row of a duplicate-free row list. -/
theorem ancOf_row (nm : ℤ → Option CNode) (rows : List ListCommentsByStoryRow)
    (hnodup : (rows.map (fun r => r.ID)).Nodup) (r : ListCommentsByStoryRow)
    (hr : r ∈ rows) :
    ancOf nm rows r.ID
      = match r.ParentID with
        | none => none
        | some pid => if (nm pid).isSome then some pid else none := by
  unfold ancOf
  rw [find_row_self rows hnodup r hr]

/-- A member row has no placement parent exactly when the linking pass
promotes it to a root. -/
theorem ancOf_eq_none_iff_root (nm : ℤ → Option CNode)
    (rows : List ListCommentsByStoryRow)
    (hnodup : (rows.map (fun r => r.ID)).Nodup) (r : ListCommentsByStoryRow)
    (hr : r ∈ rows) :
    ancOf nm rows r.ID = none ↔ linkAttaches nm r = false := by
  rw [ancOf_row nm rows hnodup r hr]
  unfold linkAttaches
  rcases hpar : r.ParentID with _ | pid
  · simp
  · rcases hsome : (nm pid).isSome with _ | _ <;> simp [hsome]

/-- Prepending a placement step to an ancestor walk. -/
theorem reaches_front (anc : ℤ → Option ℤ) (x p t : ℤ) (h : anc x = some p)
    (h2 : reaches anc p t) : reaches anc x t := by
  obtain ⟨k, hk⟩ := h2
  refine ⟨k + 1, ?_⟩
  show (match anc x with
      | none => none
      | some q => ancIter anc k q) = some t
  rw [h]
  exact hk

/-- Two walks from the same start cannot pass a chain end: the shorter
target is final. -/
theorem ancIter_terminal_aux (anc : ℤ → Option ℤ) (x t1 t2 : ℤ) (k1 k2 : ℕ)
    (hk : k1 ≤ k2) (h1 : ancIter anc k1 x = some t1)
    (h2 : ancIter anc k2 x = some t2) (ht1 : anc t1 = none) : t1 = t2 := by
  obtain ⟨m, rfl⟩ := Nat.exists_eq_add_of_le hk
  rw [ancIter_add anc k1 m x, h1] at h2
  replace h2 : ancIter anc m t1 = some t2 := h2
  rcases m with _ | m
  · simpa [ancIter] using h2
  · replace h2 : (match anc t1 with
      | none => none
      | some p => ancIter anc m p) = some t2 := h2
    rw [ht1] at h2
    exact absurd h2 (by simp)

/-- The chain end above a given id is unique. -/
theorem reaches_terminal_uniq (anc : ℤ → Option ℤ) (x t1 t2 : ℤ)
    (h1 : reaches anc x t1) (h2 : reaches anc x t2)
    (ht1 : anc t1 = none) (ht2 : anc t2 = none) : t1 = t2 := by
  obtain ⟨k1, hk1⟩ := h1
  obtain ⟨k2, hk2⟩ := h2
  rcases le_total k1 k2 with h | h
  · exact ancIter_terminal_aux anc x t1 t2 k1 k2 h hk1 hk2 ht1
  · exact (ancIter_terminal_aux anc x t2 t1 k2 k1 h hk2 hk1 ht2).symm

/-- Two ancestors of one id sharing their placement parent coincide, by
the rank argument (shorter-walk version). -/
theorem chain_meet_aux (render : String → String) (now : ℤ) (opts : BuildTreeOpts)
    (rows : List ListCommentsByStoryRow) (rank : ℤ → ℕ)
    (hrank : ∀ r ∈ rows, ∀ pid, r.ParentID = some pid →
      pid ∈ rows.map (fun r2 => r2.ID) → rank r.ID < rank pid)
    (x y1 y2 t : ℤ) (k1 k2 : ℕ) (hk : k1 ≤ k2)
    (h1 : ancIter (ancOf (nodeMapOf render now opts rows) rows) k1 x = some y1)
    (h2 : ancIter (ancOf (nodeMapOf render now opts rows) rows) k2 x = some y2)
    (hy1 : ancOf (nodeMapOf render now opts rows) rows y1 = some t)
    (hy2 : ancOf (nodeMapOf render now opts rows) rows y2 = some t) : y1 = y2 := by
  obtain ⟨m, rfl⟩ := Nat.exists_eq_add_of_le hk
  rw [ancIter_add (ancOf (nodeMapOf render now opts rows) rows) k1 m x, h1] at h2
  replace h2 : ancIter (ancOf (nodeMapOf render now opts rows) rows) m y1 = some y2 := h2
  rcases m with _ | m
  · simpa [ancIter] using h2
  · replace h2 : (match ancOf (nodeMapOf render now opts rows) rows y1 with
      | none => none
      | some p => ancIter (ancOf (nodeMapOf render now opts rows) rows) m p)
        = some y2 := h2
    rw [hy1] at h2
    have h3 := ancIter_rank_le render now opts rows rank hrank m t y2 h2
    have h4 := anc_rank_lt render now opts rows rank hrank y2 t hy2
    omega

/-- Two ancestors of one id sharing their placement parent coincide. -/
theorem chain_meet_uniq (render : String → String) (now : ℤ) (opts : BuildTreeOpts)
    (rows : List ListCommentsByStoryRow) (rank : ℤ → ℕ)
    (hrank : ∀ r ∈ rows, ∀ pid, r.ParentID = some pid →
      pid ∈ rows.map (fun r2 => r2.ID) → rank r.ID < rank pid)
    (x y1 y2 t : ℤ)
    (h1 : reaches (ancOf (nodeMapOf render now opts rows) rows) x y1)
    (h2 : reaches (ancOf (nodeMapOf render now opts rows) rows) x y2)
    (hy1 : ancOf (nodeMapOf render now opts rows) rows y1 = some t)
    (hy2 : ancOf (nodeMapOf render now opts rows) rows y2 = some t) : y1 = y2 := by
  obtain ⟨k1, hk1⟩ := h1
  obtain ⟨k2, hk2⟩ := h2
  rcases le_total k1 k2 with h | h
  · exact chain_meet_aux render now opts rows rank hrank x y1 y2 t k1 k2 h hk1 hk2 hy1 hy2
  · exact (chain_meet_aux render now opts rows rank hrank x y2 y1 t k2 k1 h hk2 hk1
      hy2 hy1).symm

end App

namespace App

open Classical in
/-- Counting lemma: in the materialised subtree below a node of the built
forest, an id occurs once when it reaches the node along the
placement-parent chain and never otherwise. -/
theorem cnt_subtreeList (render : String → String) (now : ℤ) (opts : BuildTreeOpts)
    (rows : List ListCommentsByStoryRow) (rank : ℤ → ℕ)
    (hnodup : (rows.map (fun r => r.ID)).Nodup)
    (hrank : ∀ r ∈ rows, ∀ pid, r.ParentID = some pid →
      pid ∈ rows.map (fun r2 => r2.ID) → rank r.ID < rank pid) :
    ∀ (fuel : ℕ) (nd : CNode), nd.ID ∈ rows.map (fun r => r.ID) → rank nd.ID < fuel →
      ∀ x : ℤ,
      cnt (subtreeList (buildCommentTree render now rows opts).childrenOf fuel nd) x
        = if reaches (ancOf (nodeMapOf render now opts rows) rows) x nd.ID then 1
          else 0 := by
  intro fuel
  induction fuel with
  | zero => intro nd _ hlt; exact absurd hlt (Nat.not_lt_zero _)
  | succ fuel ih =>
    intro nd hmem hlt x
    have hchild : ∀ c ∈ (buildCommentTree render now rows opts).childrenOf nd.ID,
        ancOf (nodeMapOf render now opts rows) rows c.ID = some nd.ID
          ∧ c.ID ∈ rows.map (fun r => r.ID) ∧ rank c.ID < rank nd.ID := by
      intro c hc
      obtain ⟨r, hr, hlink, hcid⟩ := mem_childrenOf_row render now opts rows nd.ID c hc
      unfold linkChild at hlink
      rw [Bool.and_eq_true] at hlink
      have hparts := hlink
      have hpar : r.ParentID = some nd.ID := by simpa using hparts.1
      have hsome : ((nodeMapOf render now opts rows) nd.ID).isSome = true := hparts.2
      have hanc : ancOf (nodeMapOf render now opts rows) rows c.ID = some nd.ID := by
        rw [hcid, ancOf_row (nodeMapOf render now opts rows) rows hnodup r hr, hpar]
        show (if ((nodeMapOf render now opts rows) nd.ID).isSome then some nd.ID
            else none) = some nd.ID
        rw [if_pos hsome]
      refine ⟨hanc, ?_, ?_⟩
      · rw [hcid]
        exact List.mem_map.mpr ⟨r, hr, rfl⟩
      · exact anc_rank_lt render now opts rows rank hrank c.ID nd.ID hanc
    have hstep : subtreeList (buildCommentTree render now rows opts).childrenOf
          (fuel + 1) nd
        = nd :: (((buildCommentTree render now rows opts).childrenOf nd.ID).map
            (subtreeList (buildCommentTree render now rows opts).childrenOf fuel)).flatten :=
      rfl
    rw [hstep, cnt_cons, cnt_flatten, List.map_map]
    have hmap : ((buildCommentTree render now rows opts).childrenOf nd.ID).map
          ((fun l => cnt l x)
            ∘ subtreeList (buildCommentTree render now rows opts).childrenOf fuel)
        = ((buildCommentTree render now rows opts).childrenOf nd.ID).map
            (fun c => if reaches (ancOf (nodeMapOf render now opts rows) rows) x c.ID
              then 1 else 0) := by
      apply List.map_congr_left
      intro c hc
      obtain ⟨hanc, hcm, hcr⟩ := hchild c hc
      exact ih c hcm (by omega) x
    rw [hmap]
    by_cases hx : x = nd.ID
    · subst hx
      rw [if_pos (reaches_refl _ nd.ID)]
      have hzero : (((buildCommentTree render now rows opts).childrenOf nd.ID).map
          (fun c => if reaches (ancOf (nodeMapOf render now opts rows) rows) nd.ID c.ID
            then 1 else 0)).sum = 0 := by
        refine sum_ite_zero _
          (fun id => reaches (ancOf (nodeMapOf render now opts rows) rows) nd.ID id) ?_
        intro c hc hreach
        obtain ⟨hanc, hcm, hcr⟩ := hchild c hc
        have := reaches_rank_le render now opts rows rank hrank nd.ID c.ID hreach
        omega
      rw [hzero]
      simp
    · by_cases hreach : reaches (ancOf (nodeMapOf render now opts rows) rows) x nd.ID
      · rw [if_pos hreach, if_neg hx]
        have hone : (((buildCommentTree render now rows opts).childrenOf nd.ID).map
            (fun c => if reaches (ancOf (nodeMapOf render now opts rows) rows) x c.ID
              then 1 else 0)).sum = 1 := by
          refine sum_ite_one _
            (fun id => reaches (ancOf (nodeMapOf render now opts rows) rows) x id)
            (childrenOf_nodup render now opts rows hnodup nd.ID) ?_ ?_
          · intro c1 h1 c2 h2 hP1 hP2
            obtain ⟨ha1, _, _⟩ := hchild c1 h1
            obtain ⟨ha2, _, _⟩ := hchild c2 h2
            exact chain_meet_uniq render now opts rows rank hrank x c1.ID c2.ID nd.ID
              hP1 hP2 ha1 ha2
          · obtain ⟨k, hk⟩ := hreach
            rcases k with _ | k
            · have hxeq : x = nd.ID := by simpa [ancIter] using hk
              exact absurd hxeq hx
            · obtain ⟨y, hy1, hy2⟩ := ancIter_succ_last
                (ancOf (nodeMapOf render now opts rows) rows) k x nd.ID hk
              obtain ⟨ry, hry, hryid, hrypar, hrysome⟩ :=
                ancOf_eq_some (nodeMapOf render now opts rows) rows y nd.ID hy2
              have hlink : linkChild (nodeMapOf render now opts rows) nd.ID ry = true := by
                unfold linkChild
                rw [hrypar]
                simp [hrysome]
              obtain ⟨c, hc, hcid⟩ :=
                row_mem_childrenOf render now opts rows nd.ID ry hry hlink
              refine ⟨c, hc, ⟨k, ?_⟩⟩
              rw [hcid, hryid]
              exact hy1
        rw [hone]
      · rw [if_neg hreach, if_neg hx]
        have hzero : (((buildCommentTree render now rows opts).childrenOf nd.ID).map
            (fun c => if reaches (ancOf (nodeMapOf render now opts rows) rows) x c.ID
              then 1 else 0)).sum = 0 := by
          refine sum_ite_zero _
            (fun id => reaches (ancOf (nodeMapOf render now opts rows) rows) x id) ?_
          intro c hc hP
          exact hreach (reaches_step (ancOf (nodeMapOf render now opts rows) rows)
            x c.ID nd.ID hP (hchild c hc).1)
        rw [hzero]

end App

namespace App

/-- Membership in the sorted root list agrees with the linking pass. -/
theorem mem_roots_iff (render : String → String) (now : ℤ) (opts : BuildTreeOpts)
    (rows : List ListCommentsByStoryRow) (c : CNode) :
    c ∈ (buildCommentTree render now rows opts).roots
      ↔ c ∈ (linkPass (nodeMapOf render now opts rows) rows).1 := by
  show c ∈ sortByWilson (linkPass (nodeMapOf render now opts rows) rows).1 ↔ _
  exact List.mem_mergeSort

/-- Every member of the root list comes from a row the linking pass
promoted to a root. -/
theorem mem_roots_row (render : String → String) (now : ℤ) (opts : BuildTreeOpts)
    (rows : List ListCommentsByStoryRow) (c : CNode)
    (h : c ∈ (buildCommentTree render now rows opts).roots) :
    ∃ r ∈ rows, linkAttaches (nodeMapOf render now opts rows) r = false
      ∧ c.ID = r.ID := by
  rw [mem_roots_iff] at h
  unfold linkPass at h
  rw [linkFold_roots] at h
  simp only [List.nil_append] at h
  obtain ⟨r, hr, hc⟩ := List.mem_map.mp h
  have hfil := List.mem_filter.mp hr
  refine ⟨r, hfil.1, ?_, ?_⟩
  · simpa using hfil.2
  · rw [← hc]
    exact nodeAt_ID render now opts rows r hfil.1

/-- Every root-promoted row contributes a node to the root list. -/
theorem row_mem_roots (render : String → String) (now : ℤ) (opts : BuildTreeOpts)
    (rows : List ListCommentsByStoryRow) (r : ListCommentsByStoryRow) (hr : r ∈ rows)
    (hatt : linkAttaches (nodeMapOf render now opts rows) r = false) :
    ∃ c ∈ (buildCommentTree render now rows opts).roots, c.ID = r.ID := by
  refine ⟨nodeAt (nodeMapOf render now opts rows) r, ?_,
    nodeAt_ID render now opts rows r hr⟩
  rw [mem_roots_iff]
  unfold linkPass
  rw [linkFold_roots]
  simp only [List.nil_append]
  exact List.mem_map.mpr ⟨r, List.mem_filter.mpr ⟨hr, by simp [hatt]⟩, rfl⟩

/-- The root list of the output carries pairwise distinct ids when the
rows do. -/
theorem roots_nodup (render : String → String) (now : ℤ) (opts : BuildTreeOpts)
    (rows : List ListCommentsByStoryRow)
    (hnodup : (rows.map (fun r => r.ID)).Nodup) :
    (((buildCommentTree render now rows opts).roots).map (fun nd => nd.ID)).Nodup := by
  have hfil : ((rows.filter
      (fun r => !(linkAttaches (nodeMapOf render now opts rows) r))).map
      (fun r => r.ID)).Nodup := by
    have hsub : (rows.filter
        (fun r => !(linkAttaches (nodeMapOf render now opts rows) r))).Sublist rows :=
      List.filter_sublist rows
    exact List.Nodup.sublist (hsub.map (fun r => r.ID)) hnodup
  have hperm : (((buildCommentTree render now rows opts).roots).map
      (fun nd => nd.ID)).Perm
      ((rows.filter (fun r => !(linkAttaches (nodeMapOf render now opts rows) r))).map
        (fun r => r.ID)) := by
    rw [← roots_map_ID]
    exact sortByWilson_map_ID_perm _
  exact hperm.nodup_iff.mpr hfil

/-- Every id of the row set has a chain end above it, found by walking
the placement parents (fuelled form). -/
theorem exists_terminal_aux (render : String → String) (now : ℤ) (opts : BuildTreeOpts)
    (rows : List ListCommentsByStoryRow) (rank : ℤ → ℕ)
    (hrank : ∀ r ∈ rows, ∀ pid, r.ParentID = some pid →
      pid ∈ rows.map (fun r2 => r2.ID) → rank r.ID < rank pid)
    (hbound : ∀ r ∈ rows, rank r.ID < rows.length) :
    ∀ (n : ℕ) (x : ℤ), x ∈ rows.map (fun r => r.ID) → rows.length ≤ rank x + n →
      ∃ t, reaches (ancOf (nodeMapOf render now opts rows) rows) x t
        ∧ ancOf (nodeMapOf render now opts rows) rows t = none
        ∧ t ∈ rows.map (fun r => r.ID) := by
  intro n
  induction n with
  | zero =>
    intro x hx hle
    exfalso
    obtain ⟨r, hr, hrid⟩ := List.mem_map.mp hx
    have := hbound r hr
    rw [hrid] at this
    omega
  | succ n ih =>
    intro x hx hle
    rcases hstep : ancOf (nodeMapOf render now opts rows) rows x with _ | p
    · exact ⟨x, reaches_refl _ x, hstep, hx⟩
    · obtain ⟨r, hr, hrid, hrpar, hsome⟩ :=
        ancOf_eq_some (nodeMapOf render now opts rows) rows x p hstep
      have hp_ids : p ∈ rows.map (fun r => r.ID) :=
        (nodeMapOf_isSome_iff render now opts rows p).mp hsome
      have hltp := anc_rank_lt render now opts rows rank hrank x p hstep
      obtain ⟨t, h1, h2, h3⟩ := ih p hp_ids (by omega)
      exact ⟨t, reaches_front (ancOf (nodeMapOf render now opts rows) rows) x p t
        hstep h1, h2, h3⟩

/-- Every id of the row set has a chain end above it. -/
theorem exists_terminal (render : String → String) (now : ℤ) (opts : BuildTreeOpts)
    (rows : List ListCommentsByStoryRow) (rank : ℤ → ℕ)
    (hrank : ∀ r ∈ rows, ∀ pid, r.ParentID = some pid →
      pid ∈ rows.map (fun r2 => r2.ID) → rank r.ID < rank pid)
    (hbound : ∀ r ∈ rows, rank r.ID < rows.length)
    (x : ℤ) (hx : x ∈ rows.map (fun r => r.ID)) :
    ∃ t, reaches (ancOf (nodeMapOf render now opts rows) rows) x t
      ∧ ancOf (nodeMapOf render now opts rows) rows t = none
      ∧ t ∈ rows.map (fun r => r.ID) :=
  exists_terminal_aux render now opts rows rank hrank hbound rows.length x hx
    (by omega)

open Classical in
/-- Counting lemma for the whole materialised forest: every id of the
row set appears exactly once, every other id never. -/
theorem cnt_forest (render : String → String) (now : ℤ) (opts : BuildTreeOpts)
    (rows : List ListCommentsByStoryRow) (rank : ℤ → ℕ)
    (hnodup : (rows.map (fun r => r.ID)).Nodup)
    (hrank : ∀ r ∈ rows, ∀ pid, r.ParentID = some pid →
      pid ∈ rows.map (fun r2 => r2.ID) → rank r.ID < rank pid)
    (hbound : ∀ r ∈ rows, rank r.ID < rows.length) (x : ℤ) :
    cnt (((buildCommentForest render now rows opts).map flattenTree).flatten) x
      = if x ∈ rows.map (fun r => r.ID) then 1 else 0 := by
  have hforest : (buildCommentForest render now rows opts).map flattenTree
      = (buildCommentTree render now rows opts).roots.map
          (subtreeList (buildCommentTree render now rows opts).childrenOf
            rows.length) := by
    show ((buildCommentTree render now rows opts).roots.map
        (toTree (buildCommentTree render now rows opts).childrenOf rows.length)).map
          flattenTree = _
    rw [List.map_map]
    exact List.map_congr_left fun c _ =>
      flattenTree_toTree (buildCommentTree render now rows opts).childrenOf
        rows.length c
  rw [hforest, cnt_flatten, List.map_map]
  have hmap : ((buildCommentTree render now rows opts).roots.map
        ((fun l => cnt l x)
          ∘ subtreeList (buildCommentTree render now rows opts).childrenOf rows.length))
      = (buildCommentTree render now rows opts).roots.map
          (fun c => if reaches (ancOf (nodeMapOf render now opts rows) rows) x c.ID
            then 1 else 0) := by
    apply List.map_congr_left
    intro c hc
    obtain ⟨r, hr, hatt, hcid⟩ := mem_roots_row render now opts rows c hc
    have hcm : c.ID ∈ rows.map (fun r2 => r2.ID) := by
      rw [hcid]
      exact List.mem_map.mpr ⟨r, hr, rfl⟩
    have hclt : rank c.ID < rows.length := by
      rw [hcid]
      exact hbound r hr
    exact cnt_subtreeList render now opts rows rank hnodup hrank rows.length c hcm
      hclt x
  rw [hmap]
  by_cases hx : x ∈ rows.map (fun r => r.ID)
  · rw [if_pos hx]
    refine sum_ite_one _
      (fun id => reaches (ancOf (nodeMapOf render now opts rows) rows) x id)
      (roots_nodup render now opts rows hnodup) ?_ ?_
    · intro c1 h1 c2 h2 hP1 hP2
      obtain ⟨r1, hr1, hatt1, hid1⟩ := mem_roots_row render now opts rows c1 h1
      obtain ⟨r2, hr2, hatt2, hid2⟩ := mem_roots_row render now opts rows c2 h2
      have ha1 : ancOf (nodeMapOf render now opts rows) rows c1.ID = none := by
        rw [hid1]
        exact (ancOf_eq_none_iff_root (nodeMapOf render now opts rows) rows hnodup
          r1 hr1).mpr hatt1
      have ha2 : ancOf (nodeMapOf render now opts rows) rows c2.ID = none := by
        rw [hid2]
        exact (ancOf_eq_none_iff_root (nodeMapOf render now opts rows) rows hnodup
          r2 hr2).mpr hatt2
      exact reaches_terminal_uniq (ancOf (nodeMapOf render now opts rows) rows) x
        c1.ID c2.ID hP1 hP2 ha1 ha2
    · obtain ⟨t, hreach, htnone, htids⟩ :=
        exists_terminal render now opts rows rank hrank hbound x hx
      obtain ⟨rt, hrt, hrtid⟩ := List.mem_map.mp htids
      have hatt : linkAttaches (nodeMapOf render now opts rows) rt = false := by
        apply (ancOf_eq_none_iff_root (nodeMapOf render now opts rows) rows hnodup
          rt hrt).mp
        rw [hrtid]
        exact htnone
      obtain ⟨c, hc, hcid⟩ := row_mem_roots render now opts rows rt hrt hatt
      refine ⟨c, hc, ?_⟩
      rw [hcid, hrtid]
      exact hreach
  · rw [if_neg hx]
    refine sum_ite_zero _
      (fun id => reaches (ancOf (nodeMapOf render now opts rows) rows) x id) ?_
    intro c hc hreach
    have hxc := reaches_of_not_mem (nodeMapOf render now opts rows) rows x c.ID hx
      hreach
    obtain ⟨r, hr, _, hcid⟩ := mem_roots_row render now opts rows c hc
    apply hx
    rw [hxc, hcid]
    exact List.mem_map.mpr ⟨r, hr, rfl⟩

end App

section ClaimC10

open App

/-- C10: for a row list with pairwise distinct ids whose parent
references are acyclic within the set (witnessed by a rank that
increases from child to resolvable parent and stays below the row
count), the materialised forest of `buildCommentTree` holds each input
row id exactly once — the flattened forest ids are a permutation of the
row ids — and each row sits as a child of its resolved parent, or as a
root when its parent id is null or matches no row of the set. -/
theorem buildCommentForest_each_row_once (render : String → String) (now : ℤ)
    (opts : BuildTreeOpts) (rows : List ListCommentsByStoryRow) (rank : ℤ → ℕ)
    (hnodup : (rows.map (fun r => r.ID)).Nodup)
    (hrank : ∀ r ∈ rows, ∀ pid, r.ParentID = some pid →
      pid ∈ rows.map (fun r2 => r2.ID) → rank r.ID < rank pid)
    (hbound : ∀ r ∈ rows, rank r.ID < rows.length) :
    ((((buildCommentForest render now rows opts).map flattenTree).flatten.map
        (fun nd => nd.ID)).Perm (rows.map (fun r => r.ID)))
    ∧ (∀ r ∈ rows, ∀ pid, r.ParentID = some pid →
        pid ∈ rows.map (fun r2 => r2.ID) →
        ∃ c ∈ (buildCommentTree render now rows opts).childrenOf pid, c.ID = r.ID)
    ∧ (∀ r ∈ rows,
        (∀ pid, r.ParentID = some pid → pid ∉ rows.map (fun r2 => r2.ID)) →
        ∃ c ∈ (buildCommentTree render now rows opts).roots, c.ID = r.ID) := by
  refine ⟨?_, ?_, ?_⟩
  · rw [List.perm_iff_count]
    intro a
    show cnt (((buildCommentForest render now rows opts).map flattenTree).flatten) a
      = _
    rw [cnt_forest render now opts rows rank hnodup hrank hbound a]
    by_cases ha : a ∈ rows.map (fun r => r.ID)
    · rw [if_pos ha]
      exact (List.count_eq_one_of_mem hnodup ha).symm
    · rw [if_neg ha]
      exact (List.count_eq_zero_of_not_mem ha).symm
  · intro r hr pid hpid hpm
    have hsome : ((nodeMapOf render now opts rows) pid).isSome = true :=
      (nodeMapOf_isSome_iff render now opts rows pid).mpr hpm
    have hlink : linkChild (nodeMapOf render now opts rows) pid r = true := by
      unfold linkChild
      rw [hpid]
      simp [hsome]
    exact row_mem_childrenOf render now opts rows pid r hr hlink
  · intro r hr hnores
    have hatt : linkAttaches (nodeMapOf render now opts rows) r = false := by
      unfold linkAttaches
      rcases hpar : r.ParentID with _ | pid
      · rfl
      · show ((nodeMapOf render now opts rows) pid).isSome = false
        rcases hsome : ((nodeMapOf render now opts rows) pid).isSome with _ | _
        · rfl
        · exact absurd ((nodeMapOf_isSome_iff render now opts rows pid).mp hsome)
            (hnores pid hpar)
    exact row_mem_roots render now opts rows r hr hatt

end ClaimC10

namespace App

/-- Concrete row replying to `rowA`. -/
def rowE : ListCommentsByStoryRow :=
  { ID := 2, StoryID := 5, UserID := 8, ParentID := some 1, Body := "reply"
    Depth := 1, Upvotes := 1, Downvotes := 0, CreatedAt := 10, UpdatedAt := 0
    DeletedAtValid := false, Username := "bob" }

/-- Acyclicity rank of the concrete parent/child pair of rows. -/
def c10rank : ℤ → ℕ := fun id => if id = 1 then 1 else 0

end App

section ClaimC10Witness

open App

/-- Witness for C10 at a concrete parent/child input. -/
theorem buildCommentForest_each_row_once_witness :
    ([rowA, rowE].map (fun r => r.ID)).Nodup
    ∧ (∀ r ∈ [rowA, rowE],
        c10rank r.ID < ([rowA, rowE] : List ListCommentsByStoryRow).length)
    ∧ (((((buildCommentForest idRender 0 [rowA, rowE] plainOpts).map
          flattenTree).flatten.map (fun nd => nd.ID)).Perm
            ([rowA, rowE].map (fun r => r.ID)))
      ∧ (∀ r ∈ [rowA, rowE], ∀ pid, r.ParentID = some pid →
          pid ∈ [rowA, rowE].map (fun r2 => r2.ID) →
          ∃ c ∈ (buildCommentTree idRender 0 [rowA, rowE] plainOpts).childrenOf pid,
            c.ID = r.ID)
      ∧ (∀ r ∈ [rowA, rowE],
          (∀ pid, r.ParentID = some pid → pid ∉ [rowA, rowE].map (fun r2 => r2.ID)) →
          ∃ c ∈ (buildCommentTree idRender 0 [rowA, rowE] plainOpts).roots,
            c.ID = r.ID)) :=
  ⟨by decide, by decide,
    buildCommentForest_each_row_once idRender 0 plainOpts [rowA, rowE] c10rank
      (by decide)
      (by
        intro r hr pid hpid hpm
        rcases List.mem_cons.mp hr with h | h
        · subst h
          exact Option.noConfusion hpid
        · rcases List.mem_cons.mp h with h2 | h2
          · subst h2
            have h3 : some (1 : ℤ) = some pid := hpid
            have h4 : (1 : ℤ) = pid := Option.some.inj h3
            subst h4
            decide
          · exact absurd h2 (List.not_mem_nil r))
      (by decide)⟩

end ClaimC10Witness

namespace App

/-- First of two rows sharing the id `1`. -/
def c10rowA : ListCommentsByStoryRow :=
  { ID := 1, StoryID := 5, UserID := 7, ParentID := none, Body := "first"
    Depth := 0, Upvotes := 0, Downvotes := 0, CreatedAt := 0, UpdatedAt := 0
    DeletedAtValid := false, Username := "alice" }

/-- Second row with the same id `1` and a different body. -/
def c10rowB : ListCommentsByStoryRow :=
  { ID := 1, StoryID := 5, UserID := 7, ParentID := none, Body := "second"
    Depth := 0, Upvotes := 0, Downvotes := 0, CreatedAt := 0, UpdatedAt := 0
    DeletedAtValid := false, Username := "alice" }

end App

section ClaimC10Cex

open App

/-- Counterexample to C10 as stated: on an acyclic row list with a
repeated id the node map keeps only the last row, so the forest holds
two copies of the second row's node and no node built from the first
row — the flattened bodies are not a permutation of the input bodies. -/
theorem buildCommentForest_duplicate_id_cex :
    (((buildCommentForest idRender 0 [c10rowA, c10rowB] plainOpts).map
        flattenTree).flatten.map (fun nd => nd.Body)) = ["second", "second"]
    ∧ [c10rowA, c10rowB].map (fun r => idRender r.Body) = ["first", "second"]
    ∧ ¬ ((((buildCommentForest idRender 0 [c10rowA, c10rowB] plainOpts).map
          flattenTree).flatten.map (fun nd => nd.Body)).Perm
        ([c10rowA, c10rowB].map (fun r => idRender r.Body))) := by
  have hroots0 : (linkPass (nodeMapOf idRender 0 plainOpts [c10rowA, c10rowB])
        [c10rowA, c10rowB]).1
      = [buildNode idRender 0 plainOpts c10rowB,
          buildNode idRender 0 plainOpts c10rowB] := by decide
  have hroots : (buildCommentTree idRender 0 [c10rowA, c10rowB] plainOpts).roots
      = [buildNode idRender 0 plainOpts c10rowB,
          buildNode idRender 0 plainOpts c10rowB] := by
    have hperm : ((buildCommentTree idRender 0 [c10rowA, c10rowB] plainOpts).roots).Perm
        [buildNode idRender 0 plainOpts c10rowB,
          buildNode idRender 0 plainOpts c10rowB] := by
      show (sortByWilson (linkPass (nodeMapOf idRender 0 plainOpts [c10rowA, c10rowB])
        [c10rowA, c10rowB]).1).Perm _
      rw [hroots0]
      exact List.mergeSort_perm _ _
    have hrepl : [buildNode idRender 0 plainOpts c10rowB,
        buildNode idRender 0 plainOpts c10rowB]
        = List.replicate 2 (buildNode idRender 0 plainOpts c10rowB) := rfl
    rw [hrepl] at hperm ⊢
    exact List.perm_replicate.mp hperm
  have hchild : (buildCommentTree idRender 0 [c10rowA, c10rowB] plainOpts).childrenOf 1
      = [] := by decide
  have hone : flattenTree (toTree
        (buildCommentTree idRender 0 [c10rowA, c10rowB] plainOpts).childrenOf 2
        (buildNode idRender 0 plainOpts c10rowB))
      = [buildNode idRender 0 plainOpts c10rowB] := by
    rw [flattenTree_toTree]
    show buildNode idRender 0 plainOpts c10rowB ::
        (((buildCommentTree idRender 0 [c10rowA, c10rowB] plainOpts).childrenOf
          (buildNode idRender 0 plainOpts c10rowB).ID).map
            (subtreeList
              (buildCommentTree idRender 0 [c10rowA, c10rowB] plainOpts).childrenOf
              1)).flatten
      = _
    have h1 : (buildCommentTree idRender 0 [c10rowA, c10rowB] plainOpts).childrenOf
        (buildNode idRender 0 plainOpts c10rowB).ID = [] := hchild
    rw [h1]
    rfl
  have hflat : (buildCommentForest idRender 0 [c10rowA, c10rowB] plainOpts).map
        flattenTree
      = [[buildNode idRender 0 plainOpts c10rowB],
          [buildNode idRender 0 plainOpts c10rowB]] := by
    show (((buildCommentTree idRender 0 [c10rowA, c10rowB] plainOpts).roots.map
        (toTree (buildCommentTree idRender 0 [c10rowA, c10rowB] plainOpts).childrenOf
          2)).map flattenTree) = _
    rw [hroots]
    simp only [List.map_cons, List.map_nil, hone]
  have hbodies : (((buildCommentForest idRender 0 [c10rowA, c10rowB] plainOpts).map
        flattenTree).flatten.map (fun nd => nd.Body)) = ["second", "second"] := by
    rw [hflat]
    decide
  refine ⟨hbodies, by decide, ?_⟩
  intro hperm
  rw [hbodies] at hperm
  have hc := List.perm_iff_count.mp hperm "first"
  revert hc
  decide

end ClaimC10Cex
